import Mathlib

/-!
# Verification of the chessboard-component position codec, diff engine and drag controller

This file gives a shallow embedding of the algorithmic core of the
`chessboard-component` repository (files `src/utils/index.ts` and
`src/chessboard.ts`) and proves properties of that embedding.

Modelling conventions:

* JavaScript strings are embedded as `List Char` (called `Str` below).
* A JavaScript plain object used as a string-keyed map (the board position
  objects, the `moves` argument of `calculatePositionFromMoves`, ...) is
  embedded as an association list `List (Str × Str)` in insertion order,
  with the JS object operations `obj[k]`, `obj[k] = v`, `delete obj[k]`,
  `obj.hasOwnProperty(k)` and `for (const k in obj)` embedded as `objGet`,
  `objSet`, `objDelete`, `objHas` and structural recursion over the list.
  All keys occurring in practice are two-character square codes, which are
  not array indices, so JS `for...in` enumeration order is insertion order.
* `deepCopy` (a JSON round trip in the source) is the identity on values in
  this pure embedding and is therefore omitted.
* `Array.prototype.sort` (guaranteed stable by the ECMAScript standard) is
  embedded as a stable insertion sort with the same comparator ordering.
-/

/-- A JavaScript string, embedded as its list of characters. -/
abbrev Str := List Char

/-- A JavaScript object used as a string-keyed map, in insertion order. -/
abbrev Obj := List (Str × Str)

/-- Shorthand for building a `Str` from a Lean string literal. -/
def q (s : String) : Str := s.toList

/-- JS `obj[k]` for objects with string values (`undefined` becomes `none`). -/
def objGet (o : Obj) (k : Str) : Option Str :=
  match o with
  | [] => none
  | e :: t => if e.1 = k then some e.2 else objGet t k

/-- JS `obj.hasOwnProperty(k)` (all stored values are defined strings). -/
def objHas (o : Obj) (k : Str) : Bool :=
  (objGet o k).isSome

/-- JS `delete obj[k]`. -/
def objDelete (o : Obj) (k : Str) : Obj :=
  o.filter (fun e => ¬ e.1 = k)

/-- Replace the value of the first entry with key `k` (the key keeps its
insertion position, as in JS assignment to an existing property). -/
def setFirst (o : Obj) (k v : Str) : Obj :=
  match o with
  | [] => []
  | e :: t => if e.1 = k then (e.1, v) :: t else e :: setFirst t k v

/-- JS `obj[k] = v`: update in place if the key exists, else append. -/
def objSet (o : Obj) (k v : Str) : Obj :=
  if objHas o k then setFirst o k v else o ++ [(k, v)]

/-- Well-formedness of the embedding of a JS object: keys are unique
(automatic for real JS objects). -/
def objWf (o : Obj) : Prop :=
  (o.map Prod.fst).Nodup

/-!
## Position codec (`src/utils/index.ts`)
-/

/-- `COLUMNS = 'abcdefgh'.split('')`. -/
def COLUMNS : List Char := ['a', 'b', 'c', 'd', 'e', 'f', 'g', 'h']

/-- The digit character of a rank number 1..8 (`'?'` outside that range;
the source only ever concatenates the numbers 1..8 into square codes). -/
def digitCh : Nat → Char
  | 1 => '1' | 2 => '2' | 3 => '3' | 4 => '4'
  | 5 => '5' | 6 => '6' | 7 => '7' | 8 => '8'
  | _ => '?'

/-- `isValidSquare`: the regex test `^[a-h][1-8]$`. -/
def isValidSquare (s : Str) : Bool :=
  match s with
  | [f, r] => COLUMNS.contains f && (['1','2','3','4','5','6','7','8'].contains r)
  | _ => false

/-- `isValidPieceCode`: the regex test `^[bw][KQRNBP]$`. -/
def isValidPieceCode (p : Str) : Bool :=
  match p with
  | [c, k] => (['b','w'].contains c) && (['K','Q','R','N','B','P'].contains k)
  | _ => false

/-- `isValidPositionObject`: every entry has a valid square key and a valid
piece-code value. -/
def isValidPositionObject (o : Obj) : Bool :=
  o.all (fun e => isValidSquare e.1 && isValidPieceCode e.2)

/-- First-characters test used by `replaceAll`. -/
def startsWithL (pat s : Str) : Bool :=
  match pat, s with
  | [], _ => true
  | _ :: _, [] => false
  | p :: ps, c :: cs => p = c && startsWithL ps cs

/-- JS `s.replace(/pat/g, rep)` for a literal pattern `pat`: left-to-right,
non-overlapping global replacement. -/
def replaceAll (pat rep : Str) (s : Str) : Str :=
  match s with
  | [] => []
  | c :: rest =>
    if h : pat ≠ [] ∧ startsWithL pat (c :: rest) then
      rep ++ replaceAll pat rep ((c :: rest).drop pat.length)
    else
      c :: replaceAll pat rep rest
termination_by s.length
decreasing_by
  · simp only [List.length_drop, List.length_cons]
    have : pat.length ≠ 0 := fun hl => h.1 (List.eq_nil_of_length_eq_zero hl)
    omega
  · simp

/-- A run of `k` copies of the character `'1'`. -/
def ones (k : Nat) : Str := List.replicate k '1'

/-- `squeezeFenEmptySquares`: collapse runs of `'1'`s, longest first. -/
def squeezeFenEmptySquares (f : Str) : Str :=
  replaceAll (ones 2) ['2'] (replaceAll (ones 3) ['3'] (replaceAll (ones 4) ['4']
    (replaceAll (ones 5) ['5'] (replaceAll (ones 6) ['6'] (replaceAll (ones 7) ['7']
      (replaceAll (ones 8) ['8'] f))))))

/-- `expandFenEmptySquares`: expand digits 8 down to 2 into runs of `'1'`s. -/
def expandFenEmptySquares (f : Str) : Str :=
  replaceAll ['2'] (ones 2) (replaceAll ['3'] (ones 3) (replaceAll ['4'] (ones 4)
    (replaceAll ['5'] (ones 5) (replaceAll ['6'] (ones 6) (replaceAll ['7'] (ones 7)
      (replaceAll ['8'] (ones 8) f))))))

/-- JS `fen.replace(/ .+$/, '')`: cut everything from the first space that is
followed by at least one character (the regex needs a non-empty `.+`). -/
def cutSpaceTail : Str → Str
  | [] => []
  | c :: rest => if c = ' ' ∧ rest ≠ [] then [] else c :: cutSpaceTail rest

/-- JS `s.split('/')`. -/
def splitSlash : Str → List Str
  | [] => [[]]
  | c :: rest =>
    if c = '/' then [] :: splitSlash rest
    else
      match splitSlash rest with
      | [] => [[c]]
      | h :: t => (c :: h) :: t

/-- Inverse of `splitSlash`: join with `'/'`. -/
def joinSlash : List Str → Str
  | [] => []
  | [r] => r
  | r :: rest => r ++ '/' :: joinSlash rest

/-- Characters allowed in a fully expanded FEN rank (regex `[^kqrnbpKQRNBP1]`
must not match). -/
def isExpandedFenChar (c : Char) : Bool :=
  (['k','q','r','n','b','p','K','Q','R','N','B','P','1'] : List Char).contains c

/-- `isValidFen`: strip a trailing clause, expand empty-square digits, and
check for 8 ranks of 8 valid characters each. -/
def isValidFen (f : Str) : Bool :=
  let f2 := expandFenEmptySquares (cutSpaceTail f)
  let chunks := splitSlash f2
  chunks.length == 8 && chunks.all (fun ch => ch.length == 8 && ch.all isExpandedFenChar)

/-- Digit test used by the `fenToObj` parser (the regex character class
`[1-8]`). -/
def isDigit18 (c : Char) : Bool :=
  (['1','2','3','4','5','6','7','8'] : List Char).contains c

/-- `parseInt` on a single digit character. -/
def digitVal (c : Char) : Nat := c.toNat - 48

/-- `fenToPieceCode`: one FEN letter to a two-character piece code. -/
def fenToPieceCode (c : Char) : Str :=
  if c.toLower = c then ['b', c.toUpper] else ['w', c.toUpper]

/-- `pieceCodeToFen`: two-character piece code to its FEN letter (the source
returns a one-character string; we return the character). -/
def pieceCodeToFen (p : Str) : Char :=
  if p.headD '?' = 'w' then (p.getD 1 '?').toUpper else (p.getD 1 '?').toLower

/-- Inner loop of the `fenToObj` parser over one rank, carrying `colIdx`. -/
def parseFenRow (row : Str) (colIdx : Nat) (rowRank : Nat) (pos : Obj) : Obj :=
  match row with
  | [] => pos
  | c :: rest =>
    if isDigit18 c then
      parseFenRow rest (colIdx + digitVal c) rowRank pos
    else
      parseFenRow rest (colIdx + 1) rowRank
        (objSet pos [COLUMNS.getD colIdx '?', digitCh rowRank] (fenToPieceCode c))

/-- Outer loop of the `fenToObj` parser: the source iterates `i = 0..7` over
`rows[i]` with `currentRow` counting 8 down to 1; validation guarantees
exactly 8 rows, so this is the same traversal expressed structurally. -/
def parseFenRows : List Str → Nat → Obj → Obj
  | [], _, pos => pos
  | row :: rest, currentRow, pos =>
    parseFenRows rest (currentRow - 1) (parseFenRow row 0 currentRow pos)

/-- `fenToObj`: returns `none` where the source returns `false`. -/
def fenToObj (f : Str) : Option Obj :=
  if isValidFen f then
    some (parseFenRows (splitSlash (cutSpaceTail f)) 8 [])
  else
    none

/-- One rank of the unsqueezed FEN built by `objToFen` (rank `r`, files a-h). -/
def rawFenRow (o : Obj) (r : Nat) : Str :=
  (List.range 8).map (fun j =>
    match objGet o [COLUMNS.getD j '?', digitCh r] with
    | some pc => pieceCodeToFen pc
    | none => '1')

/-- The eight ranks built by `objToFen`, rank 8 first. -/
def rawFenRows (o : Obj) : List Str :=
  (List.range 8).map (fun i => rawFenRow o (8 - i))

/-- `objToFen`: returns `none` where the source returns `false`. -/
def objToFen (o : Obj) : Option Str :=
  if isValidPositionObject o then
    some (squeezeFenEmptySquares (joinSlash (rawFenRows o)))
  else
    none

/-- `START_FEN`. -/
def START_FEN : Str := q "rnbqkbnr/pppppppp/8/8/8/8/PPPPPPPP/RNBQKBNR"

/-- `START_POSITION = fenToObj(START_FEN)`. -/
def START_POSITION : Obj := (fenToObj START_FEN).getD []

/-- The `position` argument accepted by `normalizePosition`: a string, a
position object, or `null`. -/
inductive BoardPosition where
  | strv (s : Str)
  | objv (o : Obj)
  | nullv

/-- JS `toLowerCase` on an ASCII string. -/
def lowerStr (s : Str) : Str := s.map Char.toLower

/-- `normalizePosition`: `null`/empty string are falsy and give the empty
position; `'start'` (case-insensitive) gives the start position; a valid FEN
is decoded; a valid position object passes through; anything else gives the
empty position. -/
def normalizePosition (p : BoardPosition) : Obj :=
  match p with
  | .nullv => []
  | .strv s =>
    if s = [] then []
    else if lowerStr s = q "start" then START_POSITION
    else if isValidFen s then (fenToObj s).getD []
    else []
  | .objv o => if isValidPositionObject o then o else []

/-!
## Diff-engine helpers (`src/utils/index.ts`)
-/

/-- JS `Array.prototype.indexOf`: `-1` when the element is missing. -/
def jsIndexOf (l : Str) (c : Char) : Int :=
  match l with
  | [] => -1
  | x :: t => if x = c then 0 else
      match jsIndexOf t c with
      | -1 => -1
      | i => i + 1

/-- `parseInt` on the rank character of a square code; non-digits give `NaN`
in JS, embedded as `0` here (only reachable for invalid squares, which never
appear in the proved statements). -/
def parseRankDigit (c : Char) : Int :=
  if '0' ≤ c ∧ c ≤ '9' then ((c.toNat - 48 : Nat) : Int) else 0

/-- `squareDistance`: the larger of the file and rank distances. -/
def squareDistance (a b : Str) : Nat :=
  let ax := jsIndexOf COLUMNS (a.headD '?') + 1
  let ay := parseRankDigit (a.getD 1 '?')
  let bx := jsIndexOf COLUMNS (b.headD '?') + 1
  let b2 := parseRankDigit (b.getD 1 '?')
  let xDelta := (ax - bx).natAbs
  let yDelta := (ay - b2).natAbs
  if yDelta ≤ xDelta then xDelta else yDelta

/-- The column-major enumeration a1, a2, ..., a8, b1, ..., h8 used by
`createRadius` to build its candidate list. -/
def allSquaresList : List Str :=
  List.flatten ((List.range 8).map (fun i =>
    (List.range 8).map (fun j => [COLUMNS.getD i '?', digitCh (j + 1)])))

/-- One step of the stable insertion sort embedding `squares.sort((a, b) =>
a.distance - b.distance)`: insert after every element of distance ≤ the new
element's distance. -/
def radiusInsert (x : Str × Nat) : List (Str × Nat) → List (Str × Nat)
  | [] => [x]
  | h :: t => if h.2 ≤ x.2 then h :: radiusInsert x t else x :: h :: t

/-- `createRadius`: all other squares listed by non-decreasing distance from
`square`, ties kept in enumeration order (stable sort). -/
def createRadius (square : Str) : List Str :=
  let pairs := (allSquaresList.filter (fun s => ¬ s = square)).map
    (fun s => (s, squareDistance square s))
  let sorted := pairs.foldl (fun acc x => radiusInsert x acc) []
  sorted.map Prod.fst

/-- `findClosestPiece`: first square of the radius list that holds `piece`
(`none` where the source returns `false`). -/
def findClosestPiece (position : Obj) (piece : Str) (square : Str) : Option Str :=
  (createRadius square).find? (fun s => objGet position s == some piece)

/-- `calculatePositionFromMoves`: apply each move in enumeration order to a
copy of the position, skipping moves whose source square is empty. -/
def calculatePositionFromMoves (position : Obj) (moves : List (Str × Str)) : Obj :=
  moves.foldl (fun newPosition m =>
    match objGet newPosition m.1 with
    | none => newPosition
    | some piece => objSet (objDelete newPosition m.1) m.2 piece) position

/-!
## Diff engine and animation sequencer (`src/chessboard.ts`)
-/

/-- One animation directive of `#calculateAnimations` (the transient
`-start` rendering variants of `#doAnimations` are not directives). -/
inductive Animation where
  | move (source destination piece : Str)
  | add (square piece : Str)
  | clear (square piece : Str)
deriving DecidableEq, Repr

/-- First loop of `#calculateAnimations`: drop squares whose piece is
identical in both positions. -/
def removeIdentical : Obj → Obj → Obj × Obj
  | pos1, [] => (pos1, [])
  | pos1, e :: rest =>
    if objGet pos1 e.1 = some e.2 then
      removeIdentical (objDelete pos1 e.1) rest
    else
      let r := removeIdentical pos1 rest
      (r.1, e :: r.2)

/-- State after the move-detection loop of `#calculateAnimations`. -/
structure MoveScan where
  pos1 : Obj
  pos2 : Obj
  moves : List Animation
  movedTo : List Str

/-- Second loop of `#calculateAnimations`: for each remaining `pos2` square,
consume the closest identical piece of `pos1` as a `move` and record the
destination in `squaresMovedTo`. -/
def movePhase : Obj → Obj → MoveScan
  | pos1, [] => ⟨pos1, [], [], []⟩
  | pos1, e :: rest =>
    match findClosestPiece pos1 e.2 e.1 with
    | some src =>
      let r := movePhase (objDelete pos1 src) rest
      ⟨r.pos1, r.pos2, .move src e.1 e.2 :: r.moves, e.1 :: r.movedTo⟩
    | none =>
      let r := movePhase pos1 rest
      ⟨r.pos1, e :: r.pos2, r.moves, r.movedTo⟩

/-- `#calculateAnimations`: moves, then adds, then clears, a clear being
suppressed on any square some move animates onto (capture). -/
def calculateAnimations (pos1 pos2 : Obj) : List Animation :=
  let r0 := removeIdentical pos1 pos2
  let r1 := movePhase r0.1 r0.2
  let adds := r1.pos2.map (fun e => Animation.add e.1 e.2)
  let clears := (r1.pos1.filter (fun e => ¬ r1.movedTo.contains e.1)).map
    (fun e => Animation.clear e.1 e.2)
  r1.moves ++ adds ++ clears

/-- The completion-counting listener of `#doAnimations`, fed a number of
`transitionend` signals: it fires the `move-end` event exactly when the
count reaches the number of directives, then unregisters itself. -/
def runTransitionListener (len numFinished : Nat) : Nat → Nat
  | 0 => 0
  | Nat.succ n =>
    if numFinished + 1 = len then 1 else runTransitionListener len (numFinished + 1) n

/-- `#doAnimations`, observed abstractly: whether a `transitionend` listener
was registered, and how many `move-end` events fire after `signals`
transition-finished signals. -/
def doAnimationsModel (anims : List Animation) (signals : Nat) : Bool × Nat :=
  if anims.length = 0 then (false, 0)
  else (true, runTransitionListener anims.length 0 signals)

/-!
## Position setter and drag controller (`src/chessboard.ts`)
-/

/-- `#setCurrentPosition`: compare FEN serializations; on a difference fire
the `change` event and store the new position. Returns (event fired?, stored
position). -/
def setCurrentPosition (cur newPos : Obj) : Bool × Obj :=
  if objToFen cur = objToFen newPos then (false, cur) else (true, newPos)

/-- `setPosition`: normalize, validate (throwing error 6482 on failure), and
hand the position to `#setCurrentPosition`. Returns the stored position or
the thrown error code. -/
def setPositionE (cur : Obj) (input : BoardPosition) : Except Nat Obj :=
  let norm := normalizePosition input
  if isValidPositionObject norm then .ok (setCurrentPosition cur norm).2
  else .error 6482

/-- The resolved end-of-drag action (`Action` in the source). -/
inductive DropAction where
  | snapback
  | trash
  | drop
deriving DecidableEq

/-- The terminal drag state entered by `#stopDraggedPiece`'s dispatch. -/
inductive TerminalTag where
  | snapback
  | trash
  | snap
deriving DecidableEq

/-- `#trashDraggedPiece`: remove the source piece and enter the `trash`
state. -/
def trashResult (pos : Obj) (source : Str) : TerminalTag × Obj :=
  (.trash, objDelete pos source)

/-- The dispatch at the end of `#stopDraggedPiece` together with the three
terminal handlers, as a function from the resolved action to the entered
terminal state and the resulting position: `#snapbackDraggedPiece` degrades
to `#trashDraggedPiece` for spare sources and otherwise leaves the position
alone; `#dropDraggedPieceOnSquare` deletes the source key and writes the
piece at the release location unconditionally. -/
def resolveTerminalAction (pos : Obj) (source piece location : Str)
    (action : DropAction) : TerminalTag × Obj :=
  match action with
  | .snapback => if source = q "spare" then trashResult pos source else (.snapback, pos)
  | .trash => trashResult pos source
  | .drop => (.snap, objSet (objDelete pos source) location piece)

/-- The default action computed by `#stopDraggedPiece` before the `drop`
event listeners may override it. -/
def defaultDropAction (dropOffBoard : DropAction) (location : Str) : DropAction :=
  if location = q "offboard" then
    (if dropOffBoard = .trash then .trash else .snapback)
  else .drop

/-- The `newPosition` computed by `#stopDraggedPiece` for the `drop` event
payload: add a spare piece only onto a real square, move a board piece off
its source and onto the target only if the target is a real square. -/
def dropEventNewPosition (pos : Obj) (source piece location : Str) : Obj :=
  let n1 := if source = q "spare" ∧ isValidSquare location then objSet pos location piece else pos
  if isValidSquare source then
    let n2 := objDelete n1 source
    if isValidSquare location then objSet n2 location piece else n2
  else n1

/-!
## Pointwise lemmas about the JS-object embedding
-/

theorem objGet_append (a b : Obj) (k : Str) :
    objGet (a ++ b) k = match objGet a k with
      | some v => some v
      | none => objGet b k := by
  induction a with
  | nil => simp [objGet]
  | cons e t ih =>
    by_cases h : e.1 = k <;> simp [objGet, h, ih]

theorem objGet_objDelete (o : Obj) (k j : Str) :
    objGet (objDelete o k) j = if j = k then none else objGet o j := by
  induction o with
  | nil => simp [objGet, objDelete]
  | cons e t ih =>
    by_cases h1 : e.1 = k <;> by_cases h2 : j = k <;> by_cases h3 : e.1 = j <;>
      simp_all [objGet, objDelete, List.filter_cons]

theorem objGet_setFirst (o : Obj) (k v j : Str) :
    objGet (setFirst o k v) j =
      if j = k then (objGet o k).map (fun _ => v) else objGet o j := by
  induction o with
  | nil => simp [objGet, setFirst]
  | cons e t ih =>
    by_cases h1 : e.1 = k <;> by_cases h2 : j = k <;> by_cases h3 : e.1 = j <;>
      simp_all [objGet, setFirst]

theorem objGet_objSet (o : Obj) (k v j : Str) :
    objGet (objSet o k v) j = if j = k then some v else objGet o j := by
  unfold objSet objHas
  rcases hg : objGet o k with _ | w
  · simp only [hg, Option.isSome_none, Bool.false_eq_true, if_false]
    rw [objGet_append]
    by_cases h2 : j = k
    · subst h2; rw [hg]; simp [objGet]
    · have h2x : ¬ k = j := fun hc => h2 hc.symm
      cases hj : objGet o j <;> simp [objGet, h2, h2x, hj]
  · simp [hg, objGet_setFirst]

/-!
## Claim C10: `calculatePositionFromMoves`
-/

/-- One move applied to a position viewed as a map: skip if the source is
empty, else delete the source and overwrite the destination. -/
def moveSemStep (m : Str → Option Str) (mv : Str × Str) : Str → Option Str :=
  fun k =>
    match m mv.1 with
    | none => m k
    | some piece => if k = mv.2 then some piece else if k = mv.1 then none else m k

theorem calculatePositionFromMoves_step (position : Obj) (mv : Str × Str) (j : Str) :
    objGet (match objGet position mv.1 with
      | none => position
      | some piece => objSet (objDelete position mv.1) mv.2 piece) j
      = moveSemStep (objGet position) mv j := by
  rcases hg : objGet position mv.1 with _ | piece
  · simp [moveSemStep, hg]
  · simp only [moveSemStep, hg, objGet_objSet, objGet_objDelete]

/-- Claim C10: `calculatePositionFromMoves` applies the moves in enumeration
order to a copy of the input position; a move whose source square is empty in
the evolving position is skipped, otherwise the piece is deleted from the
source and written at the destination, overwriting any occupant. The input
list itself is a value in this embedding, so it is never mutated. -/
theorem claim_C10_calculatePositionFromMoves (position : Obj) (moves : List (Str × Str)) (k : Str) :
    objGet (calculatePositionFromMoves position moves) k
      = moves.foldl moveSemStep (objGet position) k := by
  induction moves generalizing position with
  | nil => rfl
  | cons mv ms ih =>
    show objGet (calculatePositionFromMoves
      (match objGet position mv.1 with
        | none => position
        | some piece => objSet (objDelete position mv.1) mv.2 piece) ms) k = _
    rw [ih]
    have hfun : objGet (match objGet position mv.1 with
        | none => position
        | some piece => objSet (objDelete position mv.1) mv.2 piece)
        = moveSemStep (objGet position) mv := by
      funext j
      exact calculatePositionFromMoves_step position mv j
    rw [hfun]
    rfl

/-!
## Claim C8: `#doAnimations` completion counting
-/

theorem runTransitionListener_spec (signals : Nat) :
    ∀ len numFinished, numFinished < len →
      runTransitionListener len numFinished signals
        = if len ≤ numFinished + signals then 1 else 0 := by
  induction signals with
  | zero =>
    intro len nf h
    simp only [runTransitionListener]
    rw [if_neg (show ¬ len ≤ nf + 0 by omega)]
  | succ n ih =>
    intro len nf h
    unfold runTransitionListener
    by_cases he : nf + 1 = len
    · rw [if_pos he, if_pos (by omega)]
    · rw [if_neg he, ih len (nf + 1) (by omega)]
      have harith : nf + 1 + n = nf + (n + 1) := by omega
      rw [harith]

/-- Claim C8: with an empty directive list the sequencer registers no
listener and never fires `move-end`; with a non-empty list it registers a
listener and fires `move-end` exactly once, exactly when the number of
transition-finished signals reaches the number of directives. -/
theorem claim_C8_doAnimations (anims : List Animation) (signals : Nat) :
    (anims = [] → doAnimationsModel anims signals = (false, 0))
    ∧ (anims ≠ [] →
        (doAnimationsModel anims signals).1 = true
        ∧ (doAnimationsModel anims signals).2
            = if anims.length ≤ signals then 1 else 0) := by
  constructor
  · intro h; subst h; rfl
  · intro h
    have hlen : 0 < anims.length := List.length_pos.mpr h
    have hne : ¬ anims.length = 0 := by omega
    constructor
    · simp [doAnimationsModel, hne]
    · simp only [doAnimationsModel, hne, if_neg, if_false]
      rw [runTransitionListener_spec signals anims.length 0 hlen]
      simp

/-- Witness for C8 at a concrete input: one directive, one signal. -/
theorem claim_C8_witness :
    doAnimationsModel [] 3 = (false, 0)
    ∧ (doAnimationsModel [Animation.add (q "e4") (q "wP")] 1).1 = true
    ∧ (doAnimationsModel [Animation.add (q "e4") (q "wP")] 1).2 = 1 := by
  refine ⟨(claim_C8_doAnimations [] 3).1 rfl, ?_, ?_⟩
  · exact ((claim_C8_doAnimations [Animation.add (q "e4") (q "wP")] 1).2 (by simp)).1
  · rw [((claim_C8_doAnimations [Animation.add (q "e4") (q "wP")] 1).2 (by simp)).2]
    rfl

/-!
## Claim C6: spare-piece snapback degrades to trash
-/

/-- Claim C6: for a drag whose source is `'spare'`, resolving the
`'snapback'` action enters the `trash` terminal state (deleting the —
nonexistent — `'spare'` key from the position and never touching a board
square), and no resolved action can put a spare-piece drag into the
`snapback` terminal state. -/
theorem claim_C6_spare_snapback (pos : Obj) (piece location : Str) :
    resolveTerminalAction pos (q "spare") piece location .snapback
        = trashResult pos (q "spare")
    ∧ (∀ action : DropAction,
        (resolveTerminalAction pos (q "spare") piece location action).1 ≠ .snapback) := by
  constructor
  · simp [resolveTerminalAction]
  · intro action
    cases action <;> simp [resolveTerminalAction, trashResult]

/-!
## Claim C5: the position update of a resolved drop
-/

/-- Claim C5 failing input: when a `drop` resolves with release location
`'offboard'` (possible through the drop event's `setAction('drop')`
override), `#dropDraggedPieceOnSquare` writes the dragged piece under a
literal `'offboard'` key, whereas the `newPosition` the same
`#stopDraggedPiece` invocation just published in its drop event removed the
piece; the stored position stops being a valid position object. -/
theorem claim_C5_drop_offboard_divergence :
    resolveTerminalAction [(q "e2", q "wP")] (q "e2") (q "wP") (q "offboard") .drop
        = (.snap, [(q "offboard", q "wP")])
    ∧ dropEventNewPosition [(q "e2", q "wP")] (q "e2") (q "wP") (q "offboard") = []
    ∧ isValidPositionObject [(q "offboard", q "wP")] = false := by
  refine ⟨rfl, rfl, rfl⟩

/-!
## Claims C7 and C2: `#calculateAnimations`
-/

theorem objGet_of_mem_nodup (o : Obj) (e : Str × Str) (hwf : objWf o) (he : e ∈ o) :
    objGet o e.1 = some e.2 := by
  induction o with
  | nil => cases he
  | cons h t ih =>
    have hnd := List.nodup_cons.mp (show (h.1 :: t.map Prod.fst).Nodup from hwf)
    rcases List.mem_cons.mp he with he2 | he2
    · subst he2; simp [objGet]
    · have hne : ¬ h.1 = e.1 := by
        intro hc
        exact hnd.1 (hc ▸ List.mem_map_of_mem Prod.fst he2)
    
      simp only [objGet, hne, if_neg, if_false]
      exact ih hnd.2 he2

theorem removeIdentical_all (p2 : Obj) : ∀ p1 : Obj,
    (∀ e ∈ p2, objGet p1 e.1 = some e.2) → (p2.map Prod.fst).Nodup →
    removeIdentical p1 p2
      = (p1.filter (fun x => !((p2.map Prod.fst).contains x.1)), []) := by
  induction p2 with
  | nil => intro p1 _ _; simp [removeIdentical]
  | cons e t ih =>
    intro p1 hall hnd
    have hnd2 := List.nodup_cons.mp (show (e.1 :: t.map Prod.fst).Nodup from hnd)
    have he : objGet p1 e.1 = some e.2 := hall e (by simp)
    have hrec := ih (objDelete p1 e.1) ?_ hnd2.2
    · simp only [removeIdentical, he, if_pos, hrec]
      refine Prod.ext ?_ rfl
      show (objDelete p1 e.1).filter _ = _
      unfold objDelete
      rw [List.filter_filter]
      apply List.filter_congr
      intro x _
      simp only [List.map_cons, List.contains_cons]
      by_cases hx : x.1 = e.1
      · simp [hx]
      · by_cases hm : x.1 ∈ List.map Prod.fst t <;> simp [hx, hm]
    · intro e2 he2
      have hne : e2.1 ≠ e.1 := by
        intro hc
        exact hnd2.1 (hc ▸ List.mem_map_of_mem Prod.fst he2)
      rw [objGet_objDelete, if_neg hne]
      exact hall e2 (List.mem_cons_of_mem e he2)

/-- Claim C7: diffing a well-formed position against itself yields no
animation directives (in particular two empty positions do, and the function
is total on all position values). -/
theorem claim_C7_self_diff_empty (p : Obj) (hwf : objWf p) :
    calculateAnimations p p = [] := by
  have hall : ∀ e ∈ p, objGet p e.1 = some e.2 := fun e he => objGet_of_mem_nodup p e hwf he
  have h0 := removeIdentical_all p p hall hwf
  have hfil : p.filter (fun x => !((p.map Prod.fst).contains x.1)) = [] := by
    rw [List.filter_eq_nil_iff]
    intro x hx
    simp [List.mem_map_of_mem Prod.fst hx]
  rw [hfil] at h0
  simp [calculateAnimations, h0, movePhase]

/-- Witness for C7: the empty position. -/
theorem claim_C7_witness : calculateAnimations [] [] = [] :=
  claim_C7_self_diff_empty [] (by simp [objWf])

theorem movePhase_moves_movedTo (p2 : Obj) : ∀ p1 : Obj, ∀ a ∈ (movePhase p1 p2).moves,
    ∃ s d c, a = Animation.move s d c ∧ d ∈ (movePhase p1 p2).movedTo := by
  induction p2 with
  | nil => intro p1 a ha; cases ha
  | cons e t ih =>
    intro p1 a ha
    rcases hf : findClosestPiece p1 e.2 e.1 with _ | src
    · simp only [movePhase, hf] at ha ⊢
      rcases ih p1 a ha with ⟨s, d, c, rfl, hd⟩
      exact ⟨s, d, c, rfl, hd⟩
    · simp only [movePhase, hf] at ha ⊢
      rcases List.mem_cons.mp ha with ha2 | ha2
      · exact ⟨src, e.1, e.2, ha2, by simp⟩
      · rcases ih (objDelete p1 src) a ha2 with ⟨s, d, c, rfl, hd⟩
        exact ⟨s, d, c, rfl, List.mem_cons_of_mem _ hd⟩

/-- Claim C2: no `clear` directive is ever emitted for a square that is the
destination of a `move` directive of the same batch, and the concrete
capture example of the specification produces exactly one `move`. -/
theorem claim_C2_capture_suppression :
    (∀ (prev next : Obj) (sq pc src d mp : Str),
      Animation.clear sq pc ∈ calculateAnimations prev next →
      Animation.move src d mp ∈ calculateAnimations prev next →
      d ≠ sq)
    ∧ calculateAnimations [(q "e4", q "wP"), (q "d5", q "bP")] [(q "d5", q "wP")]
        = [Animation.move (q "e4") (q "d5") (q "wP")] := by
  constructor
  · intro prev next sq pc src d mp hclear hmove
    unfold calculateAnimations at hclear hmove
    rcases List.mem_append.mp hclear with hc | hc
    · rcases List.mem_append.mp hc with hc2 | hc2
      · rcases movePhase_moves_movedTo _ _ _ hc2 with ⟨s, d2, c2, heq, _⟩
        cases heq
      · rcases List.mem_map.mp hc2 with ⟨x, _, hx⟩
        cases hx
    · rcases List.mem_map.mp hc with ⟨x, hxmem, hx⟩
      have hx1 : x.1 = sq := by injection hx with h1 h2
      have hnotin := (List.mem_filter.mp hxmem).2
      rcases List.mem_append.mp hmove with hm | hm
      · rcases List.mem_append.mp hm with hm2 | hm2
        · rcases movePhase_moves_movedTo _ _ _ hm2 with ⟨s, d2, c2, heq, hd2⟩
          injection heq with e1 e2 e3
          subst e2
          intro hcon
          subst hcon
          rw [hx1] at hnotin
          simp [hd2] at hnotin
        · rcases List.mem_map.mp hm2 with ⟨y, _, hy⟩
          cases hy
      · rcases List.mem_map.mp hm with ⟨y, _, hy⟩
        cases hy
  · rfl

/-- Witness for C2 at a concrete input with both a move and a clear. -/
theorem claim_C2_witness : (q "d5" : Str) ≠ q "a1" :=
  claim_C2_capture_suppression.1 [(q "e4", q "wP"), (q "a1", q "bP")] [(q "d5", q "wP")]
    (q "a1") (q "bP") (q "e4") (q "d5") (q "wP") (by decide) (by decide)

/-!
## Claim C1: `findClosestPiece` and the radius ordering
-/

/-- Index of a valid square in the column-major enumeration a1, a2, ..., h8
(junk squares map to 0; the claims only use it on valid squares). -/
def enumIdx (s : Str) : Nat :=
  match s with
  | [f, r] => (f.toNat - 97) * 8 + (r.toNat - 49)
  | _ => 0

/-- Sort key combining distance (major) and enumeration index (minor). -/
def radKey (s t : Str) : Nat := squareDistance s t * 64 + enumIdx t

/-- The radius list as the claim describes it: squares other than `s` grouped
by increasing distance, each group in column-major enumeration order. -/
def specRadius (s : Str) : List Str :=
  List.flatten ((List.range 8).map (fun dd =>
    allSquaresList.filter (fun t => !(t == s) && (squareDistance s t == dd))))

/-- Strict sortedness by `radKey` of adjacent elements. -/
def chainKeyB (s : Str) : List Str → Bool
  | [] => true
  | [_] => true
  | a :: b :: t => (radKey s a < radKey s b) && chainKeyB s (b :: t)

set_option maxRecDepth 100000 in
set_option maxHeartbeats 4000000 in
theorem radius_facts :
    allSquaresList.all (fun s =>
      (createRadius s == specRadius s) && chainKeyB s (specRadius s)) = true := by
  decide

set_option maxRecDepth 100000 in
set_option maxHeartbeats 1000000 in
theorem dist_bound :
    allSquaresList.all (fun s => allSquaresList.all (fun u => squareDistance s u < 8)) = true := by
  decide

set_option maxRecDepth 100000 in
theorem allSquares_valid :
    allSquaresList.all (fun s => isValidSquare s && (enumIdx s < 64)) = true := by
  decide

theorem valid_mem_allSquares (s : Str) (h : isValidSquare s = true) : s ∈ allSquaresList := by
  cases s with
  | nil => simp [isValidSquare] at h
  | cons f t =>
    cases t with
    | nil => simp [isValidSquare] at h
    | cons r t2 =>
      cases t2 with
      | cons x t3 => simp [isValidSquare] at h
      | nil =>
        simp only [isValidSquare, Bool.and_eq_true] at h
        have hf : f ∈ COLUMNS := by
          have h1 := h.1; simpa using h1
        have hr : r ∈ (['1','2','3','4','5','6','7','8'] : List Char) := by
          have h2 := h.2; simpa using h2
        fin_cases hf <;> fin_cases hr <;> decide

theorem mem_specRadius (s u : Str) :
    u ∈ specRadius s ↔ (u ∈ allSquaresList ∧ u ≠ s ∧ squareDistance s u < 8) := by
  unfold specRadius
  simp only [List.mem_flatten, List.mem_map]
  constructor
  · rintro ⟨l, ⟨dd, hdd, rfl⟩, hu⟩
    have hm := List.mem_filter.mp hu
    have hm2 := hm.2
    simp only [Bool.and_eq_true, Bool.not_eq_eq_eq_not, beq_iff_eq] at hm2
    refine ⟨hm.1, ?_, ?_⟩
    · intro hc; rcases hm2 with ⟨hm2a, _⟩; simp [hc] at hm2a
    · rcases hm2 with ⟨_, hm2b⟩
      rw [hm2b]
      exact List.mem_range.mp hdd
  · rintro ⟨hmem, hne, hlt⟩
    refine ⟨_, ⟨squareDistance s u, List.mem_range.mpr hlt, rfl⟩, ?_⟩
    refine List.mem_filter.mpr ⟨hmem, ?_⟩
    simp [hne]

theorem chainKeyB_pairwise (s : Str) : ∀ l, chainKeyB s l = true →
    List.Pairwise (fun a b => radKey s a < radKey s b) l := by
  intro l
  induction l with
  | nil => intro; simp
  | cons a rest ih =>
    cases rest with
    | nil => intro; simp
    | cons b t =>
      intro h
      rw [show chainKeyB s (a :: b :: t)
          = ((radKey s a < radKey s b) && chainKeyB s (b :: t)) from rfl,
        Bool.and_eq_true] at h
      have h1 : radKey s a < radKey s b := of_decide_eq_true h.1
      have hp := ih h.2
      refine List.Pairwise.cons ?_ hp
      intro u hu
      rcases List.mem_cons.mp hu with rfl | hu2
      · exact h1
      · exact Nat.lt_trans h1 ((List.pairwise_cons.mp hp).1 u hu2)

theorem find_min (key : Str → Nat) (p : Str → Bool) :
    ∀ l : List Str, List.Pairwise (fun a b => key a < key b) l →
      ∀ t, l.find? p = some t →
        p t = true ∧ t ∈ l ∧ ∀ u ∈ l, p u = true → key t ≤ key u := by
  intro l
  induction l with
  | nil => intro _ t ht; cases ht
  | cons h tl ih =>
    intro hpw t ht
    rcases hp : p h with _ | _
    · rw [List.find?_cons_of_neg _ (by simp [hp])] at ht
      rcases ih (List.pairwise_cons.mp hpw).2 t ht with ⟨hpt, hmem, hmin⟩
      refine ⟨hpt, List.mem_cons_of_mem _ hmem, ?_⟩
      intro u hu hpu
      rcases List.mem_cons.mp hu with rfl | hu2
      · rw [hp] at hpu; cases hpu
      · exact hmin u hu2 hpu
    · rw [List.find?_cons_of_pos _ hp] at ht
      injection ht with ht2
      subst ht2
      refine ⟨hp, by simp, ?_⟩
      intro u hu hpu
      rcases List.mem_cons.mp hu with rfl | hu2
      · exact Nat.le_refl _
      · exact Nat.le_of_lt ((List.pairwise_cons.mp hpw).1 u hu2)

theorem createRadius_eq_specRadius (s : Str) (hs : s ∈ allSquaresList) :
    createRadius s = specRadius s ∧ chainKeyB s (specRadius s) = true := by
  have h := List.all_eq_true.mp radius_facts s hs
  rw [Bool.and_eq_true] at h
  exact ⟨eq_of_beq h.1, h.2⟩

theorem squareDistance_lt_8 (s u : Str) (hs : s ∈ allSquaresList) (hu : u ∈ allSquaresList) :
    squareDistance s u < 8 := by
  have h := List.all_eq_true.mp (List.all_eq_true.mp dist_bound s hs) u hu
  exact of_decide_eq_true h

theorem mem_allSquares_props (s : Str) (hs : s ∈ allSquaresList) :
    isValidSquare s = true ∧ enumIdx s < 64 := by
  have h := List.all_eq_true.mp allSquares_valid s hs
  rw [Bool.and_eq_true] at h
  exact ⟨h.1, of_decide_eq_true h.2⟩

/-- Claim C1 counterexample: with the piece standing on the target square
itself (and nowhere else), `findClosestPiece` returns `false` even though a
square of `prev` holds the piece — `createRadius` skips the starting square,
so the claim's "returns false when no square of prev holds p" fails. -/
theorem claim_C1_counterexample :
    findClosestPiece [(q "e2", q "wP")] (q "wP") (q "e2") = none
    ∧ objGet [(q "e2", q "wP")] (q "e2") = some (q "wP")
    ∧ isValidSquare (q "e2") = true := by
  refine ⟨by decide, rfl, rfl⟩

/-- Claim C1 (amended): over the candidate squares **other than the target
square `s`**, `findClosestPiece` returns a square of `prev` holding exactly
piece `p` of minimal distance `max (abs file delta) (abs rank delta)` from
`s`, ties among equally distant candidates broken by the column-major
enumeration a1, a2, ..., a8, b1, ..., h8, and returns `false` exactly when no
square other than `s` holds `p`; consequently the diff of the positions
"white pawn on e2" to "white pawn on e4" is exactly one move directive from
e2 to e4. -/
theorem claim_C1_nearest_piece :
    (∀ (prev : Obj) (p s t : Str), isValidSquare s = true →
      findClosestPiece prev p s = some t →
        objGet prev t = some p ∧ t ≠ s ∧ isValidSquare t = true ∧
        ∀ u : Str, isValidSquare u = true → u ≠ s → objGet prev u = some p →
          squareDistance s t < squareDistance s u
          ∨ (squareDistance s t = squareDistance s u ∧ enumIdx t ≤ enumIdx u))
    ∧ (∀ (prev : Obj) (p s : Str), isValidSquare s = true →
      findClosestPiece prev p s = none →
        ∀ u : Str, isValidSquare u = true → u ≠ s → objGet prev u ≠ some p)
    ∧ calculateAnimations [(q "e2", q "wP")] [(q "e4", q "wP")]
        = [Animation.move (q "e2") (q "e4") (q "wP")] := by
  refine ⟨?_, ?_, by decide⟩
  · intro prev p s t hs hf
    have hsm := valid_mem_allSquares s hs
    have hcr := createRadius_eq_specRadius s hsm
    simp only [findClosestPiece] at hf
    rw [hcr.1] at hf
    have hpw := chainKeyB_pairwise s _ hcr.2
    rcases find_min (radKey s) _ _ hpw t hf with ⟨hpt, htmem, hmin⟩
    have htprops := (mem_specRadius s t).mp htmem
    have hvt := (mem_allSquares_props t htprops.1).1
    have hget : objGet prev t = some p := eq_of_beq hpt
    refine ⟨hget, htprops.2.1, hvt, ?_⟩
    intro u hu hus hup
    have humem := valid_mem_allSquares u hu
    have huspec : u ∈ specRadius s := (mem_specRadius s u).mpr
      ⟨humem, hus, squareDistance_lt_8 s u hsm humem⟩
    have hpu : (objGet prev u == some p) = true := by rw [hup]; simp
    have hk := hmin u huspec hpu
    have het := (mem_allSquares_props t htprops.1).2
    have heu := (mem_allSquares_props u humem).2
    unfold radKey at hk
    omega
  · intro prev p s hs hf u hu hus hup
    have hsm := valid_mem_allSquares s hs
    have hcr := createRadius_eq_specRadius s hsm
    simp only [findClosestPiece] at hf
    rw [hcr.1] at hf
    have humem := valid_mem_allSquares u hu
    have huspec : u ∈ specRadius s := (mem_specRadius s u).mpr
      ⟨humem, hus, squareDistance_lt_8 s u hsm humem⟩
    have hnone := List.find?_eq_none.mp hf u huspec
    rw [hup] at hnone
    simp at hnone

/-- Witness for the amended C1 at a concrete input. -/
theorem claim_C1_witness :
    squareDistance (q "e4") (q "e2") < squareDistance (q "e4") (q "e2")
    ∨ (squareDistance (q "e4") (q "e2") = squareDistance (q "e4") (q "e2")
        ∧ enumIdx (q "e2") ≤ enumIdx (q "e2")) :=
  (claim_C1_nearest_piece.1 [(q "e2", q "wP")] (q "wP") (q "e4") (q "e2")
    (by decide) (by decide)).2.2.2 (q "e2") (by decide) (by decide) (by decide)

/-!
## Claim C3: FEN round trips.

### Layer A: `replaceAll` and character-wise maps
-/

/-- Character-wise string transformation (JS chained `replace` of single
characters acts like this). -/
def cmap (f : Char → Str) : Str → Str
  | [] => []
  | c :: t => f c ++ cmap f t

theorem cmap_append (f : Char → Str) (a b : Str) :
    cmap f (a ++ b) = cmap f a ++ cmap f b := by
  induction a with
  | nil => rfl
  | cons c t ih => simp [cmap, ih]

theorem cmap_cmap (g f : Char → Str) (s : Str) :
    cmap g (cmap f s) = cmap (fun c => cmap g (f c)) s := by
  induction s with
  | nil => rfl
  | cons c t ih => simp [cmap, cmap_append, ih]

theorem startsWithL_append (pat t : Str) : startsWithL pat (pat ++ t) = true := by
  induction pat with
  | nil => rfl
  | cons p ps ih => simp [startsWithL, ih]

theorem startsWithL_drop (pat : Str) : ∀ s, startsWithL pat s = true →
    s = pat ++ s.drop pat.length := by
  induction pat with
  | nil => intro s _; rfl
  | cons p ps ih =>
    intro s h
    cases s with
    | nil => cases h
    | cons c cs =>
      rw [show startsWithL (p :: ps) (c :: cs) = ((p = c : Bool) && startsWithL ps cs) from rfl,
        Bool.and_eq_true] at h
      have hpc : p = c := of_decide_eq_true h.1
      subst hpc
      have := ih cs h.2
      calc p :: cs = p :: (ps ++ cs.drop ps.length) := by rw [← this]
        _ = (p :: ps) ++ (p :: cs).drop (p :: ps).length := by simp

theorem replaceAll_nil (pat rep : Str) : replaceAll pat rep [] = [] := by
  simp [replaceAll]

theorem replaceAll_cons_neg (pat rep : Str) (c : Char) (rest : Str)
    (h : ¬ (pat ≠ [] ∧ startsWithL pat (c :: rest) = true)) :
    replaceAll pat rep (c :: rest) = c :: replaceAll pat rep rest := by
  rw [replaceAll]
  simp only [h, dite_false, dif_neg, not_false_iff]

theorem replaceAll_matched (pat rep t : Str) (hne : pat ≠ []) :
    replaceAll pat rep (pat ++ t) = rep ++ replaceAll pat rep t := by
  cases hp : pat with
  | nil => exact absurd hp hne
  | cons p ps =>
    rw [← hp]
    have hsw : startsWithL pat (pat ++ t) = true := startsWithL_append pat t
    have hcons : pat ++ t = p :: (ps ++ t) := by rw [hp]; rfl
    rw [hcons, replaceAll, ← hcons]
    rw [dif_pos ⟨hne, hsw⟩]
    congr 1
    rw [List.drop_left]

theorem replaceAll_single (d : Char) (rep : Str) (s : Str) :
    replaceAll [d] rep s = cmap (fun c => if c = d then rep else [c]) s := by
  induction s with
  | nil => rw [replaceAll_nil]; rfl
  | cons c rest ih =>
    by_cases hc : c = d
    · subst hc
      have : (c : Char) :: rest = [c] ++ rest := rfl
      rw [this, replaceAll_matched [c] rep rest (by simp)]
      simp [cmap, ih]
    · rw [replaceAll_cons_neg]
      · simp [cmap, hc, ih]
      · intro hcon
        have := hcon.2
        rw [show startsWithL [d] (c :: rest) = ((d = c : Bool) && true) from rfl] at this
        simp at this
        exact hc this.symm

/-- The character-wise effect of `expandFenEmptySquares`. -/
def expandC (c : Char) : Str :=
  if (['2','3','4','5','6','7','8'] : List Char).contains c then ones (digitVal c) else [c]

theorem cmap_ones (f : Char → Str) (hf : f '1' = ['1']) (m : Nat) :
    cmap f (ones m) = ones m := by
  induction m with
  | zero => rfl
  | succ n ih =>
    show cmap f ('1' :: ones n) = '1' :: ones n
    rw [show cmap f ('1' :: ones n) = f '1' ++ cmap f (ones n) from rfl, hf, ih]
    rfl

theorem cmap_congr (f g : Char → Str) (h : ∀ c, f c = g c) (s : Str) :
    cmap f s = cmap g s := by
  induction s with
  | nil => rfl
  | cons c t ih => simp [cmap, h c, ih]

theorem expandFen_eq_cmap (s : Str) : expandFenEmptySquares s = cmap expandC s := by
  unfold expandFenEmptySquares
  simp only [replaceAll_single, cmap_cmap]
  apply cmap_congr
  intro c
  by_cases h8 : c = '8'
  · subst h8; decide
  · by_cases h7 : c = '7'
    · subst h7; decide
    · by_cases h6 : c = '6'
      · subst h6; decide
      · by_cases h5 : c = '5'
        · subst h5; decide
        · by_cases h4 : c = '4'
          · subst h4; decide
          · by_cases h3 : c = '3'
            · subst h3; decide
            · by_cases h2 : c = '2'
              · subst h2; decide
              · simp [cmap, h8, h7, h6, h5, h4, h3, h2, expandC]

/-!
### Layer B: cell semantics of FEN ranks, splitting and joining
-/

/-- The board cells a FEN rank character denotes: a digit contributes that
many empty cells, any other character one cell with its decoded piece. -/
def cellsC (c : Char) : List (Option Str) :=
  if isDigit18 c then List.replicate (digitVal c) none else [some (fenToPieceCode c)]

/-- The cells of a FEN rank string. -/
def cellsF : Str → List (Option Str)
  | [] => []
  | c :: t => cellsC c ++ cellsF t

theorem cellsF_append (a b : Str) : cellsF (a ++ b) = cellsF a ++ cellsF b := by
  induction a with
  | nil => rfl
  | cons c t ih => simp [cellsF, ih]

theorem cells_replaceAll (pat rep : Str) (hne : pat ≠ []) (hc : cellsF pat = cellsF rep) :
    ∀ s, cellsF (replaceAll pat rep s) = cellsF s := by
  suffices h : ∀ n (s : Str), s.length = n → cellsF (replaceAll pat rep s) = cellsF s by
    intro s; exact h s.length s rfl
  intro n
  induction n using Nat.strong_induction_on with
  | _ n ih =>
    intro s hn
    cases s with
    | nil => rw [replaceAll_nil]
    | cons c rest =>
      by_cases hsw : startsWithL pat (c :: rest) = true
      · have hdec := startsWithL_drop pat (c :: rest) hsw
        rw [hdec, replaceAll_matched pat rep _ hne]
        rw [cellsF_append, cellsF_append, ← hc]
        congr 1
        have hlen : ((c :: rest).drop pat.length).length < n := by
          subst hn
          conv_rhs => rw [hdec]
          rw [List.length_append]
          have hpos : 0 < pat.length := List.length_pos.mpr hne
          omega
        exact ih _ hlen _ rfl
      · rw [replaceAll_cons_neg pat rep c rest (by simp [hsw])]
        show cellsC c ++ cellsF (replaceAll pat rep rest) = cellsC c ++ cellsF rest
        congr 1
        exact ih rest.length (by subst hn; simp) rest rfl

theorem mem_replaceAll (pat rep : Str) (hne : pat ≠ []) :
    ∀ s c, c ∈ replaceAll pat rep s → c ∈ s ∨ c ∈ rep := by
  suffices h : ∀ n (s : Str), s.length = n → ∀ c, c ∈ replaceAll pat rep s → c ∈ s ∨ c ∈ rep by
    intro s; exact h s.length s rfl
  intro n
  induction n using Nat.strong_induction_on with
  | _ n ih =>
    intro s hn c hc
    cases s with
    | nil => rw [replaceAll_nil] at hc; cases hc
    | cons c0 rest =>
      by_cases hsw : startsWithL pat (c0 :: rest) = true
      · have hdec := startsWithL_drop pat (c0 :: rest) hsw
        rw [hdec, replaceAll_matched pat rep _ hne] at hc
        rcases List.mem_append.mp hc with hc2 | hc2
        · exact Or.inr hc2
        · have hlen : ((c0 :: rest).drop pat.length).length < n := by
            subst hn
            conv_rhs => rw [hdec]
            rw [List.length_append]
            have hpos : 0 < pat.length := List.length_pos.mpr hne
            omega
          rcases ih _ hlen _ rfl c hc2 with hm | hm
          · exact Or.inl (by rw [hdec]; exact List.mem_append.mpr (Or.inr hm))
          · exact Or.inr hm
      · rw [replaceAll_cons_neg pat rep c0 rest (by simp [hsw])] at hc
        rcases List.mem_cons.mp hc with rfl | hc2
        · exact Or.inl (by simp)
        · rcases ih rest.length (by subst hn; simp) rest rfl c hc2 with hm | hm
          · exact Or.inl (List.mem_cons_of_mem _ hm)
          · exact Or.inr hm

theorem splitSlash_ne_nil (s : Str) : splitSlash s ≠ [] := by
  cases s with
  | nil => simp [splitSlash]
  | cons c rest =>
    by_cases hc : c = '/'
    · simp [splitSlash, hc]
    · simp only [splitSlash, hc, if_neg, if_false]
      cases splitSlash rest <;> simp

theorem joinSlash_splitSlash (s : Str) : joinSlash (splitSlash s) = s := by
  induction s with
  | nil => rfl
  | cons c rest ih =>
    by_cases hc : c = '/'
    · subst hc
      show joinSlash ([] :: splitSlash rest) = '/' :: rest
      rcases hsp : splitSlash rest with _ | ⟨h2, t2⟩
      · exact absurd hsp (splitSlash_ne_nil rest)
      · show [] ++ '/' :: joinSlash (h2 :: t2) = '/' :: rest
        rw [← hsp, ih]
        rfl
    · simp only [splitSlash, hc, if_neg, if_false]
      rcases hsp : splitSlash rest with _ | ⟨h2, t2⟩
      · exact absurd hsp (splitSlash_ne_nil rest)
      · rw [hsp] at ih
        cases t2 with
        | nil =>
          show c :: h2 = c :: rest
          have : joinSlash [h2] = h2 := rfl
          rw [this] at ih
          rw [ih]
        | cons h3 t3 =>
          show (c :: h2) ++ '/' :: joinSlash (h3 :: t3) = c :: rest
          have : joinSlash (h2 :: h3 :: t3) = h2 ++ '/' :: joinSlash (h3 :: t3) := rfl
          rw [this] at ih
          simp only [List.cons_append]
          rw [ih]

theorem splitSlash_append (a u : Str) (h2 : Str) (t2 : List Str)
    (ha : '/' ∉ a) (hu : splitSlash u = h2 :: t2) :
    splitSlash (a ++ u) = (a ++ h2) :: t2 := by
  induction a with
  | nil => simpa using hu
  | cons c a2 ih =>
    have hc : c ≠ '/' := fun hcc => ha (hcc ▸ List.mem_cons_self c a2)
    have ih2 := ih (fun hm => ha (List.mem_cons_of_mem c hm))
    show splitSlash (c :: (a2 ++ u)) = (c :: (a2 ++ h2)) :: t2
    simp only [splitSlash, hc, if_neg, if_false]
    rw [ih2]

theorem splitSlash_single (r : Str) (hr : '/' ∉ r) : splitSlash r = [r] := by
  have := splitSlash_append r [] [] [] hr rfl
  simpa using this

theorem splitSlash_joinSlash (rows : List Str) (hne : rows ≠ [])
    (hf : ∀ r ∈ rows, '/' ∉ r) : splitSlash (joinSlash rows) = rows := by
  induction rows with
  | nil => exact absurd rfl hne
  | cons r rest ih =>
    cases rest with
    | nil =>
      show splitSlash (joinSlash [r]) = [r]
      exact splitSlash_single r (hf r (by simp))
    | cons r2 t2 =>
      show splitSlash (r ++ '/' :: joinSlash (r2 :: t2)) = r :: r2 :: t2
      have hs : splitSlash ('/' :: joinSlash (r2 :: t2)) = [] :: splitSlash (joinSlash (r2 :: t2)) := by
        simp [splitSlash]
      rw [splitSlash_append r ('/' :: joinSlash (r2 :: t2)) [] (splitSlash (joinSlash (r2 :: t2)))
        (hf r (by simp)) hs]
      rw [ih (by simp) (fun x hx => hf x (List.mem_cons_of_mem r hx))]
      simp

theorem splitSlash_cmap (f : Char → Str) (hf1 : f '/' = ['/'])
    (hf2 : ∀ c, c ≠ '/' → '/' ∉ f c) (s : Str) :
    splitSlash (cmap f s) = (splitSlash s).map (cmap f) := by
  induction s with
  | nil => rfl
  | cons c rest ih =>
    by_cases hc : c = '/'
    · subst hc
      show splitSlash (f '/' ++ cmap f rest) = List.map (cmap f) ([] :: splitSlash rest)
      rw [hf1]
      show splitSlash ('/' :: cmap f rest) = List.map (cmap f) ([] :: splitSlash rest)
      simp only [splitSlash, List.map_cons]
      rw [ih]
      rfl
    · rcases hsp : splitSlash rest with _ | ⟨h2, t2⟩
      · exact absurd hsp (splitSlash_ne_nil rest)
      · rw [hsp] at ih
        show splitSlash (f c ++ cmap f rest) = List.map (cmap f) (splitSlash (c :: rest))
        rw [splitSlash_append (f c) (cmap f rest) (cmap f h2) (List.map (cmap f) t2)
          (hf2 c hc) ih]
        simp only [splitSlash, hc, if_neg, if_false, hsp, List.map_cons]
        rw [cmap]

theorem joinSlash_cmap (f : Char → Str) (hf1 : f '/' = ['/']) (rows : List Str) :
    cmap f (joinSlash rows) = joinSlash (rows.map (cmap f)) := by
  induction rows with
  | nil => rfl
  | cons r rest ih =>
    cases rest with
    | nil => rfl
    | cons r2 t2 =>
      show cmap f (r ++ '/' :: joinSlash (r2 :: t2))
        = cmap f r ++ '/' :: joinSlash (List.map (cmap f) (r2 :: t2))
      rw [cmap_append, ← ih]
      congr 1
      show cmap f ('/' :: joinSlash (r2 :: t2)) = '/' :: cmap f (joinSlash (r2 :: t2))
      rw [show cmap f ('/' :: joinSlash (r2 :: t2))
          = f '/' ++ cmap f (joinSlash (r2 :: t2)) from rfl, hf1]
      rfl

/-!
### Layer C: block view of strings and `squeezeFenEmptySquares`
-/

/-- A block of a string: a single non-`'1'` character or a run of `'1'`s. -/
inductive Blk where
  | ch (c : Char)
  | run (k : Nat)
deriving DecidableEq, Repr

/-- Flatten a block list back into a string. -/
def flatB : List Blk → Str
  | [] => []
  | .ch c :: t => c :: flatB t
  | .run k :: t => ones k ++ flatB t

/-- The first block, if any, is not a run. -/
def headNotRun : List Blk → Bool
  | .run _ :: _ => false
  | _ => true

/-- No two adjacent run blocks (runs are maximal). -/
def noAdjRun : List Blk → Bool
  | [] => true
  | .run _ :: t => headNotRun t && noAdjRun t
  | .ch _ :: t => noAdjRun t

/-- All runs have length between 1 and `L`. -/
def runsOk (L : Nat) : List Blk → Bool
  | [] => true
  | .run k :: t => (decide (1 ≤ k) && decide (k ≤ L)) && runsOk L t
  | .ch _ :: t => runsOk L t

/-- All character blocks differ from `'1'`. -/
def chOkB : List Blk → Bool
  | [] => true
  | .ch c :: t => !(c = '1' : Bool) && chOkB t
  | .run _ :: t => chOkB t

/-- One squeeze pass on a block. -/
def passOne (L : Nat) (d : Char) : Blk → Blk
  | .run k => if k = L then .ch d else .run k
  | b => b

/-- One squeeze pass on a block list. -/
def passB (L : Nat) (d : Char) (bs : List Blk) : List Blk := bs.map (passOne L d)

theorem flatB_append (a b : List Blk) : flatB (a ++ b) = flatB a ++ flatB b := by
  induction a with
  | nil => rfl
  | cons x t ih => cases x <;> simp [flatB, ih]

/-- Whether a string starts with `'1'`. -/
def headOne : Str → Bool
  | [] => false
  | c :: _ => c = '1'

theorem ones_ne_nil (L : Nat) (h : 1 ≤ L) : ones L ≠ [] := by
  cases L with
  | zero => omega
  | succ n => simp [ones]

theorem startsWith_ones_false : ∀ (m L : Nat) (t : Str), m < L → headOne t = false →
    startsWithL (ones L) (ones m ++ t) = false := by
  intro m
  induction m with
  | zero =>
    intro L t hm ht
    cases L with
    | zero => omega
    | succ L2 =>
      show startsWithL ('1' :: ones L2) t = false
      cases t with
      | nil => rfl
      | cons c t2 =>
        have hc : ¬ ('1' : Char) = c := by
          intro hcc
          rw [headOne, ← hcc] at ht
          simp at ht
        show ((('1' : Char) = c : Bool) && startsWithL (ones L2) t2) = false
        simp [hc]
  | succ m2 ih =>
    intro L t hm ht
    cases L with
    | zero => omega
    | succ L2 =>
      show (((('1' : Char) = '1' : Bool)) && startsWithL (ones L2) (ones m2 ++ t)) = false
      rw [ih L2 t (by omega) ht]
      simp

theorem skipRuns (L : Nat) (d : Char) : ∀ (k : Nat) (t : Str), k < L → headOne t = false →
    replaceAll (ones L) [d] (ones k ++ t) = ones k ++ replaceAll (ones L) [d] t := by
  intro k
  induction k with
  | zero => intro t _ _; simp [ones]
  | succ k2 ih =>
    intro t hk ht
    show replaceAll (ones L) [d] ('1' :: (ones k2 ++ t)) = '1' :: (ones k2 ++ replaceAll (ones L) [d] t)
    rw [replaceAll_cons_neg]
    · rw [ih t (by omega) ht]
    · intro hcon
      have := hcon.2
      have hsw := startsWith_ones_false (k2 + 1) L t hk ht
      rw [show ones (k2 + 1) ++ t = '1' :: (ones k2 ++ t) from rfl] at hsw
      rw [hsw] at this
      cases this

theorem headOne_flatB (t : List Blk) (h1 : headNotRun t = true) (h2 : chOkB t = true) :
    headOne (flatB t) = false := by
  cases t with
  | nil => rfl
  | cons b t2 =>
    cases b with
    | ch c =>
      have hc : ¬ (c = '1') := by
        rw [show chOkB (Blk.ch c :: t2) = (!(c = '1' : Bool) && chOkB t2) from rfl,
          Bool.and_eq_true] at h2
        intro hcc
        rw [hcc] at h2
        simp at h2
      show (c = '1' : Bool) = false
      simp [hc]
    | run k => cases h1

theorem replaceAll_ones_blocks (L : Nat) (d : Char) (hL : 1 ≤ L) :
    ∀ bs : List Blk, runsOk L bs = true → noAdjRun bs = true → chOkB bs = true →
    replaceAll (ones L) [d] (flatB bs) = flatB (passB L d bs) := by
  intro bs
  induction bs with
  | nil => intro _ _ _; rw [show flatB [] = [] from rfl, replaceAll_nil]; rfl
  | cons b t ih =>
    intro hr hn hc
    cases b with
    | ch c =>
      have hcc : ¬ (c = '1') := by
        rw [show chOkB (Blk.ch c :: t) = (!(c = '1' : Bool) && chOkB t) from rfl,
          Bool.and_eq_true] at hc
        intro hcc2
        rw [hcc2] at hc
        simp at hc
      have hct : chOkB t = true := by
        rw [show chOkB (Blk.ch c :: t) = (!(c = '1' : Bool) && chOkB t) from rfl,
          Bool.and_eq_true] at hc
        exact hc.2
      show replaceAll (ones L) [d] (c :: flatB t) = flatB (Blk.ch c :: passB L d t)
      rw [replaceAll_cons_neg]
      · rw [ih hr hn hct]
        rfl
      · intro hcon
        have hsw := hcon.2
        cases L with
        | zero => omega
        | succ L2 =>
          rw [show startsWithL (ones (L2 + 1)) (c :: flatB t)
              = ((('1' : Char) = c : Bool) && startsWithL (ones L2) (flatB t)) from rfl] at hsw
          rw [Bool.and_eq_true] at hsw
          exact hcc (of_decide_eq_true hsw.1).symm
    | run k =>
      rw [show runsOk L (Blk.run k :: t)
          = ((decide (1 ≤ k) && decide (k ≤ L)) && runsOk L t) from rfl,
        Bool.and_eq_true, Bool.and_eq_true] at hr
      have hk1 : 1 ≤ k := of_decide_eq_true hr.1.1
      have hkL : k ≤ L := of_decide_eq_true hr.1.2
      rw [show noAdjRun (Blk.run k :: t) = (headNotRun t && noAdjRun t) from rfl,
        Bool.and_eq_true] at hn
      have hone : headOne (flatB t) = false := headOne_flatB t hn.1 hc
      show replaceAll (ones L) [d] (ones k ++ flatB t) = flatB (passOne L d (Blk.run k) :: passB L d t)
      by_cases hkeq : k = L
      · subst hkeq
        rw [replaceAll_matched (ones k) [d] (flatB t) (ones_ne_nil k hk1)]
        rw [ih hr.2 hn.2 hc]
        simp [passOne, flatB]
      · have hklt : k < L := by omega
        rw [skipRuns L d k (flatB t) hklt hone]
        rw [ih hr.2 hn.2 hc]
        simp [passOne, hkeq, flatB]

theorem runsOk_pass (L : Nat) (d : Char) : ∀ bs, runsOk L bs = true →
    runsOk (L - 1) (passB L d bs) = true := by
  intro bs
  induction bs with
  | nil => intro _; rfl
  | cons b t ih =>
    intro hr
    cases b with
    | ch c =>
      show runsOk (L - 1) (Blk.ch c :: passB L d t) = true
      exact ih hr
    | run k =>
      rw [show runsOk L (Blk.run k :: t)
          = ((decide (1 ≤ k) && decide (k ≤ L)) && runsOk L t) from rfl,
        Bool.and_eq_true, Bool.and_eq_true] at hr
      have hk1 : 1 ≤ k := of_decide_eq_true hr.1.1
      have hkL : k ≤ L := of_decide_eq_true hr.1.2
      show runsOk (L - 1) (passOne L d (Blk.run k) :: passB L d t) = true
      by_cases hkeq : k = L
      · simp only [passOne, hkeq, if_pos]
        exact ih hr.2
      · simp only [passOne, hkeq, if_neg, if_false]
        rw [show runsOk (L - 1) (Blk.run k :: passB L d t)
            = ((decide (1 ≤ k) && decide (k ≤ L - 1)) && runsOk (L - 1) (passB L d t)) from rfl]
        rw [ih hr.2]
        have : k ≤ L - 1 := by omega
        simp [hk1, this]

theorem headNotRun_pass (L : Nat) (d : Char) (t : List Blk) (h : headNotRun t = true) :
    headNotRun (passB L d t) = true := by
  cases t with
  | nil => rfl
  | cons b t2 =>
    cases b with
    | ch c => rfl
    | run k => cases h

theorem noAdjRun_pass (L : Nat) (d : Char) : ∀ bs, noAdjRun bs = true →
    noAdjRun (passB L d bs) = true := by
  intro bs
  induction bs with
  | nil => intro _; rfl
  | cons b t ih =>
    intro hn
    cases b with
    | ch c => exact ih hn
    | run k =>
      rw [show noAdjRun (Blk.run k :: t) = (headNotRun t && noAdjRun t) from rfl,
        Bool.and_eq_true] at hn
      show noAdjRun (passOne L d (Blk.run k) :: passB L d t) = true
      by_cases hkeq : k = L
      · simp only [passOne, hkeq, if_pos]
        show noAdjRun (Blk.ch d :: passB L d t) = true
        exact ih hn.2
      · simp only [passOne, hkeq, if_neg, if_false]
        show noAdjRun (Blk.run k :: passB L d t) = true
        rw [show noAdjRun (Blk.run k :: passB L d t)
            = (headNotRun (passB L d t) && noAdjRun (passB L d t)) from rfl]
        rw [headNotRun_pass L d t hn.1, ih hn.2]
        rfl

theorem chOkB_pass (L : Nat) (d : Char) (hd : ¬ d = '1') : ∀ bs, chOkB bs = true →
    chOkB (passB L d bs) = true := by
  intro bs
  induction bs with
  | nil => intro _; rfl
  | cons b t ih =>
    intro hc
    cases b with
    | ch c =>
      rw [show chOkB (Blk.ch c :: t) = (!(c = '1' : Bool) && chOkB t) from rfl,
        Bool.and_eq_true] at hc
      show chOkB (Blk.ch c :: passB L d t) = true
      rw [show chOkB (Blk.ch c :: passB L d t)
          = (!(c = '1' : Bool) && chOkB (passB L d t)) from rfl]
      rw [hc.1, ih hc.2]
      rfl
    | run k =>
      show chOkB (passOne L d (Blk.run k) :: passB L d t) = true
      by_cases hkeq : k = L
      · simp only [passOne, hkeq, if_pos]
        show chOkB (Blk.ch d :: passB L d t) = true
        rw [show chOkB (Blk.ch d :: passB L d t)
            = (!(d = '1' : Bool) && chOkB (passB L d t)) from rfl]
        rw [ih hc]
        simp [hd]
      · simp only [passOne, hkeq, if_neg, if_false]
        exact ih hc

/-- The seven squeeze passes on blocks. -/
def passAllB (bs : List Blk) : List Blk :=
  passB 2 '2' (passB 3 '3' (passB 4 '4' (passB 5 '5' (passB 6 '6' (passB 7 '7' (passB 8 '8' bs))))))

theorem squeeze_flatB (bs : List Blk) (hr : runsOk 8 bs = true) (hn : noAdjRun bs = true)
    (hc : chOkB bs = true) :
    squeezeFenEmptySquares (flatB bs) = flatB (passAllB bs) := by
  unfold squeezeFenEmptySquares passAllB
  rw [replaceAll_ones_blocks 8 '8' (by omega) bs hr hn hc]
  set b8 := passB 8 '8' bs with hb8
  have hr8 := runsOk_pass 8 '8' bs hr
  have hn8 := noAdjRun_pass 8 '8' bs hn
  have hc8 := chOkB_pass 8 '8' (by decide) bs hc
  rw [replaceAll_ones_blocks 7 '7' (by omega) b8 hr8 hn8 hc8]
  set b7 := passB 7 '7' b8 with hb7
  have hr7 := runsOk_pass 7 '7' b8 hr8
  have hn7 := noAdjRun_pass 7 '7' b8 hn8
  have hc7 := chOkB_pass 7 '7' (by decide) b8 hc8
  rw [replaceAll_ones_blocks 6 '6' (by omega) b7 hr7 hn7 hc7]
  set b6 := passB 6 '6' b7 with hb6
  have hr6 := runsOk_pass 6 '6' b7 hr7
  have hn6 := noAdjRun_pass 6 '6' b7 hn7
  have hc6 := chOkB_pass 6 '6' (by decide) b7 hc7
  rw [replaceAll_ones_blocks 5 '5' (by omega) b6 hr6 hn6 hc6]
  set b5 := passB 5 '5' b6 with hb5
  have hr5 := runsOk_pass 5 '5' b6 hr6
  have hn5 := noAdjRun_pass 5 '5' b6 hn6
  have hc5 := chOkB_pass 5 '5' (by decide) b6 hc6
  rw [replaceAll_ones_blocks 4 '4' (by omega) b5 hr5 hn5 hc5]
  set b4 := passB 4 '4' b5 with hb4
  have hr4 := runsOk_pass 4 '4' b5 hr5
  have hn4 := noAdjRun_pass 4 '4' b5 hn5
  have hc4 := chOkB_pass 4 '4' (by decide) b5 hc5
  rw [replaceAll_ones_blocks 3 '3' (by omega) b4 hr4 hn4 hc4]
  set b3 := passB 3 '3' b4 with hb3
  have hr3 := runsOk_pass 3 '3' b4 hr4
  have hn3 := noAdjRun_pass 3 '3' b4 hn4
  have hc3 := chOkB_pass 3 '3' (by decide) b4 hc4
  rw [replaceAll_ones_blocks 2 '2' (by omega) b3 hr3 hn3 hc3]

/-!
### Layer D: canonical FEN strings and the squeeze/expand round trip
-/

/-- Characters that may appear inside a canonical FEN rank. -/
def isRankChar (c : Char) : Bool :=
  (['k','q','r','n','b','p','K','Q','R','N','B','P','1','2','3','4','5','6','7','8'] :
    List Char).contains c

/-- The first character, if any, is not a digit 1..8. -/
def headNotDigit : Str → Bool
  | [] => true
  | c :: _ => !isDigit18 c

/-- No two adjacent digit characters (empty runs maximally collapsed). -/
def noAdjDigitsB : Str → Bool
  | [] => true
  | c :: t => (if isDigit18 c then headNotDigit t else true) && noAdjDigitsB t

/-- A canonical FEN: 8 ranks of 8 units, rank characters only, empty-square
runs maximally collapsed. -/
def canonicalFen (f : Str) : Bool :=
  (splitSlash f).length == 8 &&
  (splitSlash f).all (fun ch =>
    ch.all isRankChar && ((cellsF ch).length == 8) && noAdjDigitsB ch)

/-- The block a single character denotes. -/
def blkOfChar (c : Char) : Blk :=
  if isDigit18 c then .run (digitVal c) else .ch c

/-- Blocks of a string with every digit its own run. -/
def blksOf (s : Str) : List Blk := s.map blkOfChar

theorem isDigit18_mem (c : Char) (h : isDigit18 c = true) :
    c ∈ (['1','2','3','4','5','6','7','8'] : List Char) := by
  simpa [isDigit18] using h

theorem flatB_map (h : Char → Blk) (f : Str) :
    flatB (List.map h f) = cmap (fun c => flatB [h c]) f := by
  induction f with
  | nil => rfl
  | cons c t ih =>
    show flatB (h c :: List.map h t) = flatB [h c] ++ cmap (fun c => flatB [h c]) t
    rw [← ih]
    cases hx : h c <;> simp [flatB]

theorem expandFen_blksOf (f : Str) : expandFenEmptySquares f = flatB (blksOf f) := by
  rw [expandFen_eq_cmap, blksOf, flatB_map]
  apply cmap_congr
  intro c
  by_cases hd : isDigit18 c = true
  · have hmem := isDigit18_mem c hd
    fin_cases hmem <;> decide
  · have hcond : ¬ ((['2','3','4','5','6','7','8'] : List Char).contains c = true) := by
      intro hcon
      apply hd
      have hm : c ∈ (['2','3','4','5','6','7','8'] : List Char) := by simpa using hcon
      have hm2 : c ∈ (['1','2','3','4','5','6','7','8'] : List Char) := by
        fin_cases hm <;> decide
      simpa [isDigit18] using hm2
    unfold expandC
    rw [if_neg hcond]
    rw [show blkOfChar c = .ch c from by simp [blkOfChar, hd]]
    rfl

theorem noAdjRun_blksOf (s : Str) (h : noAdjDigitsB s = true) :
    noAdjRun (blksOf s) = true := by
  induction s with
  | nil => rfl
  | cons c t ih =>
    rw [show noAdjDigitsB (c :: t)
        = ((if isDigit18 c then headNotDigit t else true) && noAdjDigitsB t) from rfl,
      Bool.and_eq_true] at h
    show noAdjRun (blkOfChar c :: blksOf t) = true
    by_cases hd : isDigit18 c = true
    · rw [show blkOfChar c = .run (digitVal c) from by simp [blkOfChar, hd]]
      rw [show noAdjRun (Blk.run (digitVal c) :: blksOf t)
          = (headNotRun (blksOf t) && noAdjRun (blksOf t)) from rfl, Bool.and_eq_true]
      refine ⟨?_, ih h.2⟩
      have hh := h.1
      rw [if_pos hd] at hh
      cases t with
      | nil => rfl
      | cons c2 t2 =>
        have hnd : isDigit18 c2 = false := by
          rcases hcon : isDigit18 c2 with _ | _
          · rfl
          · rw [show headNotDigit (c2 :: t2) = !isDigit18 c2 from rfl, hcon] at hh
            cases hh
        show headNotRun (blkOfChar c2 :: blksOf t2) = true
        rw [show blkOfChar c2 = .ch c2 from by simp [blkOfChar, hnd]]
        rfl
    · rw [show blkOfChar c = .ch c from by simp [blkOfChar, hd]]
      show noAdjRun (Blk.ch c :: blksOf t) = true
      exact ih h.2

theorem runsOk_blksOf (s : Str) : runsOk 8 (blksOf s) = true := by
  induction s with
  | nil => rfl
  | cons c t ih =>
    show runsOk 8 (blkOfChar c :: blksOf t) = true
    by_cases hd : isDigit18 c = true
    · rw [show blkOfChar c = .run (digitVal c) from by simp [blkOfChar, hd]]
      rw [show runsOk 8 (Blk.run (digitVal c) :: blksOf t)
          = ((decide (1 ≤ digitVal c) && decide (digitVal c ≤ 8)) && runsOk 8 (blksOf t)) from rfl,
        Bool.and_eq_true]
      refine ⟨?_, ih⟩
      have hmem := isDigit18_mem c hd
      fin_cases hmem <;> decide
    · rw [show blkOfChar c = .ch c from by simp [blkOfChar, hd]]
      show runsOk 8 (blksOf t) = true
      exact ih

theorem chOkB_blksOf (s : Str) : chOkB (blksOf s) = true := by
  induction s with
  | nil => rfl
  | cons c t ih =>
    show chOkB (blkOfChar c :: blksOf t) = true
    by_cases hd : isDigit18 c = true
    · rw [show blkOfChar c = .run (digitVal c) from by simp [blkOfChar, hd]]
      exact ih
    · rw [show blkOfChar c = .ch c from by simp [blkOfChar, hd]]
      have hc1 : ¬ (c = '1') := by
        intro hcc
        rw [hcc] at hd
        exact hd rfl
      rw [show chOkB (Blk.ch c :: blksOf t) = (!(c = '1' : Bool) && chOkB (blksOf t)) from rfl,
        Bool.and_eq_true]
      exact ⟨by simp [hc1], ih⟩

theorem passAllB_map (g : Char → Blk) (f : Str) :
    passAllB (List.map g f)
      = List.map (fun c => passOne 2 '2' (passOne 3 '3' (passOne 4 '4' (passOne 5 '5'
          (passOne 6 '6' (passOne 7 '7' (passOne 8 '8' (g c)))))))) f := by
  unfold passAllB passB
  simp [List.map_map]

theorem flatB_passAllB_blksOf (f : Str) : flatB (passAllB (blksOf f)) = f := by
  rw [blksOf, passAllB_map, flatB_map]
  have : ∀ c : Char, flatB [passOne 2 '2' (passOne 3 '3' (passOne 4 '4' (passOne 5 '5'
      (passOne 6 '6' (passOne 7 '7' (passOne 8 '8' (blkOfChar c)))))))] = [c] := by
    intro c
    by_cases hd : isDigit18 c = true
    · have hmem := isDigit18_mem c hd
      fin_cases hmem <;> decide
    · rw [show blkOfChar c = .ch c from by simp [blkOfChar, hd]]
      rfl
  calc cmap (fun c => flatB [passOne 2 '2' (passOne 3 '3' (passOne 4 '4' (passOne 5 '5'
      (passOne 6 '6' (passOne 7 '7' (passOne 8 '8' (blkOfChar c)))))))]) f
      = cmap (fun c => [c]) f := cmap_congr _ _ this f
    _ = f := by
        induction f with
        | nil => rfl
        | cons c t ih => simp [cmap, ih]

/-- Direction-2 core: squeezing the expansion of a string whose 1-runs are
maximal (no adjacent digits) and bounded restores the string. -/
theorem squeeze_expandFen (f : Str) (hnadj : noAdjDigitsB f = true) :
    squeezeFenEmptySquares (expandFenEmptySquares f) = f := by
  rw [expandFen_blksOf]
  rw [squeeze_flatB (blksOf f) (runsOk_blksOf f) (noAdjRun_blksOf f hnadj)
    (chOkB_blksOf f)]
  exact flatB_passAllB_blksOf f

/-!
### Layer E: canonical FEN strings are valid, and squeeze back to themselves
-/

theorem mem_joinSlash (rows : List Str) (c : Char) (h : c ∈ joinSlash rows) :
    c = '/' ∨ ∃ r ∈ rows, c ∈ r := by
  induction rows with
  | nil => cases h
  | cons r rest ih =>
    cases rest with
    | nil =>
      right
      exact ⟨r, by simp, h⟩
    | cons r2 t2 =>
      rw [show joinSlash (r :: r2 :: t2) = r ++ '/' :: joinSlash (r2 :: t2) from rfl] at h
      rcases List.mem_append.mp h with hm | hm
      · exact Or.inr ⟨r, by simp, hm⟩
      · rcases List.mem_cons.mp hm with rfl | hm2
        · exact Or.inl rfl
        · rcases ih hm2 with hs | ⟨r3, hr3, hc3⟩
          · exact Or.inl hs
          · exact Or.inr ⟨r3, List.mem_cons_of_mem r hr3, hc3⟩

theorem cutSpaceTail_id (s : Str) (h : (' ' : Char) ∉ s) : cutSpaceTail s = s := by
  induction s with
  | nil => rfl
  | cons c rest ih =>
    have hc : ¬ (c = ' ') := fun hcc => h (hcc ▸ List.mem_cons_self c rest)
    rw [show cutSpaceTail (c :: rest)
        = (if c = ' ' ∧ rest ≠ [] then [] else c :: cutSpaceTail rest) from rfl]
    rw [if_neg (fun hcon => hc hcon.1)]
    rw [ih (fun hm => h (List.mem_cons_of_mem c hm))]

theorem noAdjDigits_glue (c : Char) (b : Str) (hc : isDigit18 c = false)
    (hb : noAdjDigitsB b = true) :
    ∀ a, noAdjDigitsB a = true → noAdjDigitsB (a ++ c :: b) = true := by
  intro a
  induction a with
  | nil =>
    intro _
    show noAdjDigitsB (c :: b) = true
    rw [show noAdjDigitsB (c :: b)
        = ((if isDigit18 c then headNotDigit b else true) && noAdjDigitsB b) from rfl]
    rw [hc, hb]
    simp
  | cons x a2 ih =>
    intro ha
    rw [show noAdjDigitsB (x :: a2)
        = ((if isDigit18 x then headNotDigit a2 else true) && noAdjDigitsB a2) from rfl,
      Bool.and_eq_true] at ha
    show noAdjDigitsB (x :: (a2 ++ c :: b)) = true
    rw [show noAdjDigitsB (x :: (a2 ++ c :: b))
        = ((if isDigit18 x then headNotDigit (a2 ++ c :: b) else true)
            && noAdjDigitsB (a2 ++ c :: b)) from rfl, Bool.and_eq_true]
    refine ⟨?_, ih ha.2⟩
    by_cases hx : isDigit18 x = true
    · rw [if_pos hx]
      have hha := ha.1
      rw [if_pos hx] at hha
      cases a2 with
      | nil =>
        show headNotDigit (c :: b) = true
        rw [show headNotDigit (c :: b) = !isDigit18 c from rfl, hc]
        rfl
      | cons y t2 => exact hha
    · rw [if_neg hx]

theorem noAdjDigits_joinSlash (rows : List Str)
    (h : ∀ r ∈ rows, noAdjDigitsB r = true) :
    noAdjDigitsB (joinSlash rows) = true := by
  induction rows with
  | nil => rfl
  | cons r rest ih =>
    cases rest with
    | nil => exact h r (by simp)
    | cons r2 t2 =>
      show noAdjDigitsB (r ++ '/' :: joinSlash (r2 :: t2)) = true
      refine noAdjDigits_glue '/' (joinSlash (r2 :: t2)) (by decide) ?_ r (h r (by simp))
      exact ih (fun x hx => h x (List.mem_cons_of_mem r hx))

theorem mem_cmap (f : Char → Str) (s : Str) (c2 : Char) (h : c2 ∈ cmap f s) :
    ∃ c ∈ s, c2 ∈ f c := by
  induction s with
  | nil => cases h
  | cons c t ih =>
    rcases List.mem_append.mp h with hm | hm
    · exact ⟨c, by simp, hm⟩
    · rcases ih hm with ⟨c3, hc3, hm3⟩
      exact ⟨c3, List.mem_cons_of_mem c hc3, hm3⟩

theorem length_expandC_cells (c : Char) : (expandC c).length = (cellsC c).length := by
  by_cases hd : isDigit18 c = true
  · have hmem := isDigit18_mem c hd
    fin_cases hmem <;> decide
  · have hcond : ¬ ((['2','3','4','5','6','7','8'] : List Char).contains c = true) := by
      intro hcon
      apply hd
      have hm : c ∈ (['2','3','4','5','6','7','8'] : List Char) := by simpa using hcon
      have hm2 : c ∈ (['1','2','3','4','5','6','7','8'] : List Char) := by
        fin_cases hm <;> decide
      simpa [isDigit18] using hm2
    unfold expandC cellsC
    rw [if_neg hcond, if_neg (fun hcon => hd hcon)]
    rfl

theorem length_cmap_expandC (s : Str) : (cmap expandC s).length = (cellsF s).length := by
  induction s with
  | nil => rfl
  | cons c t ih =>
    show (expandC c ++ cmap expandC t).length = (cellsC c ++ cellsF t).length
    rw [List.length_append, List.length_append, length_expandC_cells c, ih]

theorem expandC_valid_chars (c : Char) (h : isRankChar c = true) :
    ∀ c2 ∈ expandC c, isExpandedFenChar c2 = true := by
  have hmem : c ∈ (['k','q','r','n','b','p','K','Q','R','N','B','P',
      '1','2','3','4','5','6','7','8'] : List Char) := by
    simpa [isRankChar] using h
  fin_cases hmem <;> decide

theorem expandC_slash : expandC '/' = ['/'] := by decide

theorem expandC_no_slash (c : Char) (h : c ≠ '/') : ('/' : Char) ∉ expandC c := by
  by_cases hd : (['2','3','4','5','6','7','8'] : List Char).contains c = true
  · unfold expandC
    rw [if_pos hd]
    intro hm
    have : ('/' : Char) = '1' := by
      have := hm
      unfold ones at this
      exact List.eq_of_mem_replicate this
    cases this
  · unfold expandC
    rw [if_neg hd]
    intro hm
    rcases List.mem_singleton.mp hm with rfl
    exact h rfl

/-- Every canonical FEN passes `isValidFen`. -/
theorem canonical_isValidFen (f : Str) (h : canonicalFen f = true) :
    isValidFen f = true := by
  rw [canonicalFen, Bool.and_eq_true] at h
  have hlen : (splitSlash f).length = 8 := by
    have := h.1; simpa using this
  have hall := List.all_eq_true.mp h.2
  have hnospace : (' ' : Char) ∉ f := by
    intro hm
    rw [← joinSlash_splitSlash f] at hm
    rcases mem_joinSlash _ _ hm with hs | ⟨r, hr, hc⟩
    · cases hs
    · have hprops := hall r hr
      rw [Bool.and_eq_true, Bool.and_eq_true] at hprops
      have := List.all_eq_true.mp hprops.1.1 ' ' hc
      cases this
  have hcut : cutSpaceTail f = f := cutSpaceTail_id f hnospace
  rw [isValidFen]
  simp only [hcut]
  rw [expandFen_eq_cmap]
  rw [splitSlash_cmap expandC (by decide) expandC_no_slash f]
  rw [Bool.and_eq_true]
  constructor
  · simp [hlen]
  · rw [List.all_eq_true]
    intro ch2 hch2
    rcases List.mem_map.mp hch2 with ⟨ch, hchm, rfl⟩
    have hprops := hall ch hchm
    rw [Bool.and_eq_true, Bool.and_eq_true] at hprops
    rw [Bool.and_eq_true]
    constructor
    · rw [length_cmap_expandC]
      simpa using hprops.1.2
    · rw [List.all_eq_true]
      intro c2 hc2
      rcases mem_cmap expandC ch c2 hc2 with ⟨c, hcm, hc2m⟩
      exact expandC_valid_chars c (List.all_eq_true.mp hprops.1.1 c hcm) c2 hc2m

/-- A canonical FEN squeezes back to itself after expansion. -/
theorem canonical_squeeze_expand (f : Str) (h : canonicalFen f = true) :
    squeezeFenEmptySquares (expandFenEmptySquares f) = f := by
  rw [canonicalFen, Bool.and_eq_true] at h
  have hall := List.all_eq_true.mp h.2
  apply squeeze_expandFen
  rw [← joinSlash_splitSlash f]
  apply noAdjDigits_joinSlash
  intro r hr
  have hprops := hall r hr
  rw [Bool.and_eq_true] at hprops
  exact hprops.2

/-!
### Layer F: parser lookup characterization
-/

/-- The file character of column index `j` (as built by the parser). -/
def colCh (j : Nat) : Char := COLUMNS.getD j '?'

theorem colCh_eq (j : Nat) : COLUMNS.getD j '?' = colCh j := rfl

theorem colCh_inj : ∀ j1 < 8, ∀ j2 < 8, colCh j1 = colCh j2 → j1 = j2 := by decide

theorem digitCh_inj : ∀ r1 < 9, ∀ r2 < 9, 1 ≤ r1 → 1 ≤ r2 → digitCh r1 = digitCh r2 → r1 = r2 := by
  decide

theorem sqKey_valid : ∀ j < 8, ∀ rr < 9, 1 ≤ rr → isValidSquare [colCh j, digitCh rr] = true := by
  decide

theorem replicate_getD_none : ∀ (n i : Nat), (List.replicate n (none : Option Str)).getD i none = none := by
  intro n
  induction n with
  | zero => intro i; cases i <;> rfl
  | succ m ih =>
    intro i
    cases i with
    | zero => rfl
    | succ i2 => exact ih i2

theorem parseFenRow_get_other (rowRank : Nat) (k : Str)
    (hk : ∀ jj, k ≠ [colCh jj, digitCh rowRank]) :
    ∀ row colIdx pos, objGet (parseFenRow row colIdx rowRank pos) k = objGet pos k := by
  intro row
  induction row with
  | nil => intro colIdx pos; rfl
  | cons c rest ih =>
    intro colIdx pos
    show objGet (parseFenRow (c :: rest) colIdx rowRank pos) k = objGet pos k
    rw [parseFenRow]
    by_cases hd : isDigit18 c = true
    · rw [if_pos hd]
      exact ih _ _
    · rw [if_neg hd, ih _ _, objGet_objSet]
      simp only [colCh_eq]
      rw [if_neg (hk colIdx)]

theorem parseFenRow_get_low (rowRank : Nat) : ∀ (row : Str) (colIdx : Nat) (pos : Obj) (j : Nat),
    j < colIdx → j < 8 → colIdx + (cellsF row).length ≤ 8 →
    objGet (parseFenRow row colIdx rowRank pos) [colCh j, digitCh rowRank]
      = objGet pos [colCh j, digitCh rowRank] := by
  intro row
  induction row with
  | nil => intro colIdx pos j _ _ _; rfl
  | cons c rest ih =>
    intro colIdx pos j hj hj8 hbound
    rw [show cellsF (c :: rest) = cellsC c ++ cellsF rest from rfl, List.length_append] at hbound
    rw [parseFenRow]
    by_cases hd : isDigit18 c = true
    · rw [if_pos hd]
      apply ih _ _ j (by omega) hj8
      have hlen : (cellsC c).length = digitVal c := by
        rw [cellsC, if_pos hd, List.length_replicate]
      omega
    · rw [if_neg hd]
      have hlen : (cellsC c).length = 1 := by
        rw [cellsC, if_neg hd]
        rfl
      rw [ih _ _ j (by omega) hj8 (by omega)]
      rw [objGet_objSet]
      simp only [colCh_eq]
      rw [if_neg ?_]
      intro hcon
      have hcol : colCh j = colCh colIdx := by
        injection hcon with h1 h2
      have := colCh_inj j hj8 colIdx (by omega) hcol
      omega

theorem parseFenRow_get_window (rowRank : Nat) : ∀ (row : Str) (colIdx : Nat) (pos : Obj) (j : Nat),
    colIdx ≤ j → j < colIdx + (cellsF row).length → colIdx + (cellsF row).length ≤ 8 →
    (∀ jj, colIdx ≤ jj → jj < 8 → objGet pos [colCh jj, digitCh rowRank] = none) →
    objGet (parseFenRow row colIdx rowRank pos) [colCh j, digitCh rowRank]
      = (cellsF row).getD (j - colIdx) none := by
  intro row
  induction row with
  | nil =>
    intro colIdx pos j hj1 hj2 _ _
    rw [show cellsF [] = [] from rfl] at hj2
    simp at hj2
    omega
  | cons c rest ih =>
    intro colIdx pos j hj1 hj2 hbound hnone
    have hcells : cellsF (c :: rest) = cellsC c ++ cellsF rest := rfl
    rw [hcells, List.length_append] at hj2 hbound
    have hj8 : j < 8 := by omega
    rw [parseFenRow]
    by_cases hd : isDigit18 c = true
    · rw [if_pos hd]
      have hlen : (cellsC c).length = digitVal c := by
        rw [cellsC, if_pos hd, List.length_replicate]
      by_cases hjw : j < colIdx + digitVal c
      · rw [parseFenRow_get_low rowRank rest (colIdx + digitVal c) pos j hjw hj8 (by omega)]
        rw [hnone j hj1 hj8]
        rw [hcells]
        rw [List.getD_append _ _ _ _ (by rw [cellsC, if_pos hd, List.length_replicate]; omega)]
        rw [cellsC, if_pos hd]
        exact (replicate_getD_none _ _).symm
      · rw [ih (colIdx + digitVal c) pos j (by omega) (by omega) (by omega)
          (fun jj hjj1 hjj2 => hnone jj (by omega) hjj2)]
        rw [hcells]
        rw [List.getD_append_right _ _ _ _ (by rw [hlen]; omega)]
        rw [hlen]
        congr 1
        omega
    · rw [if_neg hd]
      have hlen : (cellsC c).length = 1 := by rw [cellsC, if_neg hd]; rfl
      by_cases hjc : j = colIdx
      · subst hjc
        rw [parseFenRow_get_low rowRank rest (j + 1) _ j (by omega) hj8 (by omega)]
        rw [objGet_objSet]
        simp only [colCh_eq]
        rw [if_pos trivial]
        rw [hcells]
        rw [List.getD_append _ _ _ _ (by rw [hlen]; omega)]
        rw [Nat.sub_self]
        rw [cellsC, if_neg hd]
        rfl
      · have hjgt : colIdx < j := by omega
        rw [ih (colIdx + 1) _ j (by omega) (by omega) (by omega) ?_]
        · rw [hcells]
          rw [List.getD_append_right _ _ _ _ (by rw [hlen]; omega)]
          rw [hlen]
          congr 1
        · intro jj hjj1 hjj2
          rw [objGet_objSet]
          simp only [colCh_eq]
          rw [if_neg ?_]
          · exact hnone jj (by omega) hjj2
          · intro hcon
            have hcol : colCh jj = colCh colIdx := by injection hcon with h1 h2
            have := colCh_inj jj hjj2 colIdx (by omega) hcol
            omega

theorem objSet_entries (o : Obj) (k v : Str) : ∀ e ∈ objSet o k v, e ∈ o ∨ e = (k, v) := by
  unfold objSet
  by_cases h : objHas o k = true
  · rw [if_pos h]
    clear h
    induction o with
    | nil => intro e he; cases he
    | cons e0 t ih =>
      intro e he
      rw [show setFirst (e0 :: t) k v
          = (if e0.1 = k then (e0.1, v) :: t else e0 :: setFirst t k v) from rfl] at he
      by_cases h0 : e0.1 = k
      · rw [if_pos h0] at he
        rcases List.mem_cons.mp he with rfl | he2
        · exact Or.inr (by rw [h0])
        · exact Or.inl (List.mem_cons_of_mem _ he2)
      · rw [if_neg h0] at he
        rcases List.mem_cons.mp he with rfl | he2
        · exact Or.inl (by simp)
        · rcases ih e he2 with hm | hm
          · exact Or.inl (List.mem_cons_of_mem _ hm)
          · exact Or.inr hm
  · rw [if_neg h]
    intro e he
    rcases List.mem_append.mp he with hm | hm
    · exact Or.inl hm
    · exact Or.inr (List.mem_singleton.mp hm)

theorem parseFenRow_entries (rowRank : Nat) : ∀ (row : Str) (colIdx : Nat) (pos : Obj),
    ∀ e ∈ parseFenRow row colIdx rowRank pos,
      e ∈ pos ∨ ∃ jj c, colIdx ≤ jj ∧ jj + 1 ≤ colIdx + (cellsF row).length ∧
        isDigit18 c = false ∧ c ∈ row ∧ e = ([colCh jj, digitCh rowRank], fenToPieceCode c) := by
  intro row
  induction row with
  | nil => intro colIdx pos e he; exact Or.inl he
  | cons c rest ih =>
    intro colIdx pos e he
    have hcells : (cellsF (c :: rest)).length = (cellsC c).length + (cellsF rest).length := by
      rw [show cellsF (c :: rest) = cellsC c ++ cellsF rest from rfl, List.length_append]
    rw [parseFenRow] at he
    by_cases hd : isDigit18 c = true
    · rw [if_pos hd] at he
      rcases ih _ _ e he with hm | ⟨jj, c2, h1, h2, h3, h4, h5⟩
      · exact Or.inl hm
      · refine Or.inr ⟨jj, c2, by omega, ?_, h3, List.mem_cons_of_mem c h4, h5⟩
        have : (cellsC c).length = digitVal c := by
          rw [cellsC, if_pos hd, List.length_replicate]
        omega
    · rw [if_neg hd] at he
      have hlen : (cellsC c).length = 1 := by rw [cellsC, if_neg hd]; rfl
      have hdf : isDigit18 c = false := by
        revert hd; cases isDigit18 c <;> simp
      rcases ih _ _ e he with hm | ⟨jj, c2, h1, h2, h3, h4, h5⟩
      · rcases objSet_entries pos _ _ e hm with hm2 | hm2
        · exact Or.inl hm2
        · exact Or.inr ⟨colIdx, c, Nat.le_refl _, by omega, hdf, by simp, by rw [hm2]; rfl⟩
      · exact Or.inr ⟨jj, c2, by omega, by omega, h3, List.mem_cons_of_mem c h4, h5⟩

theorem parseFenRows_get_other (k : Str) : ∀ (rows : List Str) (R : Nat) (pos : Obj),
    R = rows.length →
    (∀ jj rr, 1 ≤ rr → rr ≤ R → k ≠ [colCh jj, digitCh rr]) →
    objGet (parseFenRows rows R pos) k = objGet pos k := by
  intro rows
  induction rows with
  | nil => intro R pos _ _; rfl
  | cons row rest ih =>
    intro R pos hR hk
    show objGet (parseFenRows rest (R - 1) (parseFenRow row 0 R pos)) k = objGet pos k
    rw [ih (R - 1) _ (by rw [hR]; simp) ?_]
    · apply parseFenRow_get_other
      intro jj
      apply hk jj R ?_ (Nat.le_refl R)
      rw [hR]
      simp
    · intro jj rr h1 h2
      exact hk jj rr h1 (by omega)

theorem parseFenRows_get (rows : List Str) : ∀ (R : Nat) (pos : Obj),
    R = rows.length → R ≤ 8 →
    (∀ r ∈ rows, (cellsF r).length = 8) →
    ∀ j rr, j < 8 → 1 ≤ rr → rr ≤ R →
    (∀ jj rr2, jj < 8 → 1 ≤ rr2 → rr2 ≤ R → objGet pos [colCh jj, digitCh rr2] = none) →
    objGet (parseFenRows rows R pos) [colCh j, digitCh rr]
      = (cellsF (rows.getD (R - rr) [])).getD j none := by
  induction rows with
  | nil =>
    intro R pos hR _ _ j rr _ h1 h2 _
    rw [hR] at h2
    simp at h2
    omega
  | cons row rest ih =>
    intro R pos hR hR8 hcells j rr hj hrr1 hrr2 hnone
    have hRpos : 1 ≤ R := by rw [hR]; simp
    show objGet (parseFenRows rest (R - 1) (parseFenRow row 0 R pos)) [colCh j, digitCh rr]
      = (cellsF ((row :: rest).getD (R - rr) [])).getD j none
    by_cases hreq : rr = R
    · subst hreq
      rw [parseFenRows_get_other _ rest (rr - 1) _ (by rw [hR]; simp) ?_]
      · rw [parseFenRow_get_window rr row 0 pos j (by omega)
          (by rw [hcells row (by simp)]; omega) (by rw [hcells row (by simp)]) ?_]
        · rw [Nat.sub_self]
          simp
        · intro jj _ hjj2
          exact hnone jj rr hjj2 hrr1 (Nat.le_refl rr)
      · intro jj rr2 h1 h2 hcon
        have hpair : colCh j = colCh jj ∧ digitCh rr = digitCh rr2 := by
          simpa using hcon
        have := digitCh_inj rr (by omega) rr2 (by omega) hrr1 h1 hpair.2
        omega
    · have hrlt : rr < R := by omega
      rw [ih (R - 1) _ (by rw [hR]; simp) (by omega)
        (fun r hr => hcells r (List.mem_cons_of_mem row hr)) j rr hj hrr1 (by omega) ?_]
      · have hidx : (row :: rest).getD (R - rr) [] = rest.getD (R - 1 - rr) [] := by
          have h1 : R - rr = (R - 1 - rr) + 1 := by omega
          rw [h1]
          rfl
        rw [hidx]
      · intro jj rr2 hjj hr1 hr2
        rw [parseFenRow_get_other R _ ?_ row 0 pos]
        · exact hnone jj rr2 hjj hr1 (by omega)
        · intro jj2 hcon
          have hpair : colCh jj = colCh jj2 ∧ digitCh rr2 = digitCh R := by
            simpa using hcon
          have := digitCh_inj rr2 (by omega) R (by omega) hr1 (by omega) hpair.2
          omega

theorem parseFenRows_entries : ∀ (rows : List Str) (R : Nat) (pos : Obj),
    R = rows.length →
    (∀ r ∈ rows, (cellsF r).length = 8) →
    ∀ e ∈ parseFenRows rows R pos,
      e ∈ pos ∨ ∃ jj rr c, jj < 8 ∧ 1 ≤ rr ∧ rr ≤ R ∧ isDigit18 c = false ∧
        (∃ r ∈ rows, c ∈ r) ∧ e = ([colCh jj, digitCh rr], fenToPieceCode c) := by
  intro rows
  induction rows with
  | nil => intro R pos _ _ e he; exact Or.inl he
  | cons row rest ih =>
    intro R pos hR hcells e he
    have hRpos : 1 ≤ R := by rw [hR]; simp
    rw [show parseFenRows (row :: rest) R pos
        = parseFenRows rest (R - 1) (parseFenRow row 0 R pos) from rfl] at he
    rcases ih (R - 1) _ (by rw [hR]; simp)
      (fun r hr => hcells r (List.mem_cons_of_mem row hr)) e he with hm | hm
    · rcases parseFenRow_entries R row 0 pos e hm with hm2 | ⟨jj, c, h1, h2, h3, h4, h5⟩
      · exact Or.inl hm2
      · refine Or.inr ⟨jj, R, c, ?_, hRpos, Nat.le_refl R, h3, ⟨row, by simp, h4⟩, h5⟩
        rw [hcells row (by simp)] at h2
        omega
    · rcases hm with ⟨jj, rr, c, h1, h2, h3, h4, h5, h6⟩
      exact Or.inr ⟨jj, rr, c, h1, h2, by omega, h4,
        (by rcases h5 with ⟨r, hr, hcr⟩; exact ⟨r, List.mem_cons_of_mem row hr, hcr⟩), h6⟩

theorem objGet_none_of_no_entry (o : Obj) (k : Str) (h : ∀ e ∈ o, e.1 ≠ k) :
    objGet o k = none := by
  induction o with
  | nil => rfl
  | cons e t ih =>
    show (if e.1 = k then some e.2 else objGet t k) = none
    rw [if_neg (h e (by simp))]
    exact ih (fun e2 he2 => h e2 (List.mem_cons_of_mem e he2))

theorem objGet_none_invalid (o : Obj) (k : Str) (hv : isValidPositionObject o = true)
    (hk : isValidSquare k = false) : objGet o k = none := by
  apply objGet_none_of_no_entry
  intro e he hcon
  have := List.all_eq_true.mp hv e he
  rw [Bool.and_eq_true] at this
  rw [hcon, hk] at this
  cases this.1

theorem objGet_valid_piece (o : Obj) (k v : Str) (hv : isValidPositionObject o = true)
    (hg : objGet o k = some v) : isValidPieceCode v = true := by
  induction o with
  | nil => cases hg
  | cons e t ih =>
    rw [show objGet (e :: t) k = (if e.1 = k then some e.2 else objGet t k) from rfl] at hg
    have hall := List.all_eq_true.mp hv e (by simp)
    rw [Bool.and_eq_true] at hall
    by_cases he : e.1 = k
    · rw [if_pos he] at hg
      injection hg with hg2
      rw [← hg2]
      exact hall.2
    · rw [if_neg he] at hg
      apply ih ?_ hg
      rw [isValidPositionObject, List.all_eq_true]
      intro e2 he2
      exact List.all_eq_true.mp hv e2 (List.mem_cons_of_mem e he2)

theorem col_shape : ∀ c ∈ COLUMNS, ∃ j, j < 8 ∧ colCh j = c := by
  intro c hc
  fin_cases hc
  · exact ⟨0, by decide, rfl⟩
  · exact ⟨1, by decide, rfl⟩
  · exact ⟨2, by decide, rfl⟩
  · exact ⟨3, by decide, rfl⟩
  · exact ⟨4, by decide, rfl⟩
  · exact ⟨5, by decide, rfl⟩
  · exact ⟨6, by decide, rfl⟩
  · exact ⟨7, by decide, rfl⟩

theorem rank_shape : ∀ r ∈ (['1','2','3','4','5','6','7','8'] : List Char),
    ∃ rr, 1 ≤ rr ∧ rr ≤ 8 ∧ digitCh rr = r := by
  intro r hr
  fin_cases hr
  · exact ⟨1, by decide, by decide, rfl⟩
  · exact ⟨2, by decide, by decide, rfl⟩
  · exact ⟨3, by decide, by decide, rfl⟩
  · exact ⟨4, by decide, by decide, rfl⟩
  · exact ⟨5, by decide, by decide, rfl⟩
  · exact ⟨6, by decide, by decide, rfl⟩
  · exact ⟨7, by decide, by decide, rfl⟩
  · exact ⟨8, by decide, by decide, rfl⟩

theorem square_shape (k : Str) (h : isValidSquare k = true) :
    ∃ j rr, j < 8 ∧ 1 ≤ rr ∧ rr ≤ 8 ∧ k = [colCh j, digitCh rr] := by
  cases k with
  | nil => simp [isValidSquare] at h
  | cons f t =>
    cases t with
    | nil => simp [isValidSquare] at h
    | cons r t2 =>
      cases t2 with
      | cons x t3 => simp [isValidSquare] at h
      | nil =>
        rw [show isValidSquare [f, r]
            = (COLUMNS.contains f && (['1','2','3','4','5','6','7','8'].contains r)) from rfl,
          Bool.and_eq_true] at h
        have hf : f ∈ COLUMNS := by
          have h1 := h.1; simpa using h1
        have hr : r ∈ (['1','2','3','4','5','6','7','8'] : List Char) := by
          have h2 := h.2; simpa using h2
        rcases col_shape f hf with ⟨j, hj, hcj⟩
        rcases rank_shape r hr with ⟨rr, hr1, hr2, hrr⟩
        exact ⟨j, rr, hj, hr1, hr2, by rw [hcj, hrr]⟩

theorem piece_fen_chars (pcode : Str) (h : isValidPieceCode pcode = true) :
    isDigit18 (pieceCodeToFen pcode) = false
    ∧ fenToPieceCode (pieceCodeToFen pcode) = pcode
    ∧ isRankChar (pieceCodeToFen pcode) = true
    ∧ isExpandedFenChar (pieceCodeToFen pcode) = true
    ∧ ¬ pieceCodeToFen pcode = '/'
    ∧ ¬ pieceCodeToFen pcode = ' '
    ∧ ¬ pieceCodeToFen pcode = '1' := by
  cases pcode with
  | nil => simp [isValidPieceCode] at h
  | cons c t =>
    cases t with
    | nil => simp [isValidPieceCode] at h
    | cons k2 t2 =>
      cases t2 with
      | cons x t3 => simp [isValidPieceCode] at h
      | nil =>
        rw [show isValidPieceCode [c, k2]
            = ((['b','w'].contains c) && (['K','Q','R','N','B','P'].contains k2)) from rfl,
          Bool.and_eq_true] at h
        have hc : c ∈ (['b','w'] : List Char) := by
          have h1 := h.1; simpa using h1
        have hk : k2 ∈ (['K','Q','R','N','B','P'] : List Char) := by
          have h2 := h.2; simpa using h2
        fin_cases hc <;> fin_cases hk <;> exact ⟨by decide, by decide, by decide, by decide,
          by decide, by decide, by decide⟩

theorem letter_piece_chars (c : Char) (h : isExpandedFenChar c = true) (h1 : ¬ c = '1') :
    isValidPieceCode (fenToPieceCode c) = true ∧ pieceCodeToFen (fenToPieceCode c) = c := by
  have hm : c ∈ (['k','q','r','n','b','p','K','Q','R','N','B','P','1'] : List Char) := by
    simpa [isExpandedFenChar] using h
  fin_cases hm
  case _ : _ => exact ⟨by decide, by decide⟩
  all_goals first
    | exact ⟨by decide, by decide⟩
    | exact absurd rfl h1

/-!
### Layer G: maximal-run block view and squeezing a joined raw FEN
-/

/-- The maximal-run block decomposition of a string. -/
def blocksMax : Str → List Blk
  | [] => []
  | c :: t =>
    if c = '1' then
      match blocksMax t with
      | .run k :: bs => .run (k + 1) :: bs
      | bs => .run 1 :: bs
    else .ch c :: blocksMax t

theorem flatB_blocksMax (s : Str) : flatB (blocksMax s) = s := by
  induction s with
  | nil => rfl
  | cons c t ih =>
    by_cases hc : c = '1'
    · subst hc
      rw [show blocksMax ('1' :: t)
          = (match blocksMax t with
             | .run k :: bs => .run (k + 1) :: bs
             | bs => .run 1 :: bs) from by rw [blocksMax]; rw [if_pos rfl]]
      rcases hb : blocksMax t with _ | ⟨b, bs⟩
      · rw [hb] at ih
        show flatB [Blk.run 1] = '1' :: t
        rw [← ih]
        rfl
      · cases b with
        | ch c2 =>
          rw [hb] at ih
          show flatB (Blk.run 1 :: Blk.ch c2 :: bs) = '1' :: t
          rw [← ih]
          rfl
        | run k =>
          rw [hb] at ih
          show flatB (Blk.run (k + 1) :: bs) = '1' :: t
          rw [← ih]
          show ones (k + 1) ++ flatB bs = '1' :: flatB (Blk.run k :: bs)
          show '1' :: (ones k ++ flatB bs) = '1' :: (ones k ++ flatB bs)
          rfl
    · rw [show blocksMax (c :: t) = .ch c :: blocksMax t from by rw [blocksMax]; rw [if_neg hc]]
      show c :: flatB (blocksMax t) = c :: t
      rw [ih]

theorem blocksMax_not_run_head_of_ch (s : Str) (c2 : Char) (bs : List Blk)
    (h : blocksMax s = Blk.ch c2 :: bs ∨ blocksMax s = []) : headNotRun (blocksMax s) = true := by
  rcases h with h | h <;> rw [h] <;> rfl

theorem noAdjRun_blocksMax (s : Str) : noAdjRun (blocksMax s) = true := by
  induction s with
  | nil => rfl
  | cons c t ih =>
    by_cases hc : c = '1'
    · subst hc
      rw [show blocksMax ('1' :: t)
          = (match blocksMax t with
             | .run k :: bs => .run (k + 1) :: bs
             | bs => .run 1 :: bs) from by rw [blocksMax]; rw [if_pos rfl]]
      rcases hb : blocksMax t with _ | ⟨b, bs⟩
      · rfl
      · cases b with
        | ch c2 =>
          rw [hb] at ih
          show noAdjRun (Blk.run 1 :: Blk.ch c2 :: bs) = true
          rw [show noAdjRun (Blk.run 1 :: Blk.ch c2 :: bs)
              = (headNotRun (Blk.ch c2 :: bs) && noAdjRun (Blk.ch c2 :: bs)) from rfl]
          rw [ih]
          rfl
        | run k =>
          rw [hb] at ih
          show noAdjRun (Blk.run (k + 1) :: bs) = true
          rw [show noAdjRun (Blk.run k :: bs) = (headNotRun bs && noAdjRun bs) from rfl] at ih
          show (headNotRun bs && noAdjRun bs) = true
          exact ih
    · rw [show blocksMax (c :: t) = .ch c :: blocksMax t from by rw [blocksMax]; rw [if_neg hc]]
      show noAdjRun (blocksMax t) = true
      exact ih

theorem chOkB_blocksMax (s : Str) : chOkB (blocksMax s) = true := by
  induction s with
  | nil => rfl
  | cons c t ih =>
    by_cases hc : c = '1'
    · subst hc
      rw [show blocksMax ('1' :: t)
          = (match blocksMax t with
             | .run k :: bs => .run (k + 1) :: bs
             | bs => .run 1 :: bs) from by rw [blocksMax]; rw [if_pos rfl]]
      rcases hb : blocksMax t with _ | ⟨b, bs⟩
      · rfl
      · rw [hb] at ih
        cases b with
        | ch c2 => exact ih
        | run k =>
          show chOkB (Blk.run (k + 1) :: bs) = true
          exact ih
    · rw [show blocksMax (c :: t) = .ch c :: blocksMax t from by rw [blocksMax]; rw [if_neg hc]]
      show (!(c = '1' : Bool) && chOkB (blocksMax t)) = true
      rw [ih]
      simp [hc]

theorem blocksMax_run_le (s : Str) : ∀ k, Blk.run k ∈ blocksMax s → k ≤ s.length := by
  induction s with
  | nil => intro k hk; cases hk
  | cons c t ih =>
    intro k hk
    by_cases hc : c = '1'
    · subst hc
      rw [show blocksMax ('1' :: t)
          = (match blocksMax t with
             | .run k :: bs => .run (k + 1) :: bs
             | bs => .run 1 :: bs) from by rw [blocksMax]; rw [if_pos rfl]] at hk
      rcases hb : blocksMax t with _ | ⟨b, bs⟩
      · rw [hb] at hk
        rcases List.mem_cons.mp hk with heq | hm
        · injection heq with h1; simp; omega
        · cases hm
      · rw [hb] at hk
        cases b with
        | ch c2 =>
          rcases List.mem_cons.mp hk with heq | hm
          · injection heq with h1
            simp
            omega
          · have := ih k (by rw [hb]; exact hm)
            simp
            omega
        | run k2 =>
          rcases List.mem_cons.mp hk with heq | hm
          · injection heq with h1
            have := ih k2 (by rw [hb]; simp)
            simp
            omega
          · have := ih k (by rw [hb]; exact List.mem_cons_of_mem _ hm)
            simp
            omega
    · rw [show blocksMax (c :: t) = .ch c :: blocksMax t from by rw [blocksMax]; rw [if_neg hc]] at hk
      rcases List.mem_cons.mp hk with heq | hm
      · cases heq
      · have := ih k hm
        simp
        omega

theorem blocksMax_run_ge (s : Str) : ∀ k, Blk.run k ∈ blocksMax s → 1 ≤ k := by
  induction s with
  | nil => intro k hk; cases hk
  | cons c t ih =>
    intro k hk
    by_cases hc : c = '1'
    · subst hc
      rw [show blocksMax ('1' :: t)
          = (match blocksMax t with
             | .run k :: bs => .run (k + 1) :: bs
             | bs => .run 1 :: bs) from by rw [blocksMax]; rw [if_pos rfl]] at hk
      rcases hb : blocksMax t with _ | ⟨b, bs⟩
      · rw [hb] at hk
        rcases List.mem_cons.mp hk with heq | hm
        · injection heq with h1; omega
        · cases hm
      · rw [hb] at hk
        cases b with
        | ch c2 =>
          rcases List.mem_cons.mp hk with heq | hm
          · injection heq with h1; omega
          · exact ih k (by rw [hb]; exact hm)
        | run k2 =>
          rcases List.mem_cons.mp hk with heq | hm
          · injection heq with h1; omega
          · exact ih k (by rw [hb]; exact List.mem_cons_of_mem _ hm)
    · rw [show blocksMax (c :: t) = .ch c :: blocksMax t from by rw [blocksMax]; rw [if_neg hc]] at hk
      rcases List.mem_cons.mp hk with heq | hm
      · cases heq
      · exact ih k hm

theorem blocksMax_ch_mem (s : Str) : ∀ c, Blk.ch c ∈ blocksMax s → c ∈ s := by
  induction s with
  | nil => intro c hc; cases hc
  | cons c0 t ih =>
    intro c hc
    by_cases hc0 : c0 = '1'
    · subst hc0
      rw [show blocksMax ('1' :: t)
          = (match blocksMax t with
             | .run k :: bs => .run (k + 1) :: bs
             | bs => .run 1 :: bs) from by rw [blocksMax]; rw [if_pos rfl]] at hc
      rcases hb : blocksMax t with _ | ⟨b, bs⟩
      · rw [hb] at hc
        rcases List.mem_cons.mp hc with heq | hm
        · cases heq
        · cases hm
      · rw [hb] at hc
        cases b with
        | ch c2 =>
          rcases List.mem_cons.mp hc with heq | hm
          · cases heq
          · exact List.mem_cons_of_mem _ (ih c (by rw [hb]; exact hm))
        | run k2 =>
          rcases List.mem_cons.mp hc with heq | hm
          · cases heq
          · exact List.mem_cons_of_mem _
              (ih c (by rw [hb]; exact List.mem_cons_of_mem _ hm))
    · rw [show blocksMax (c0 :: t) = .ch c0 :: blocksMax t from by
        rw [blocksMax]; rw [if_neg hc0]] at hc
      rcases List.mem_cons.mp hc with heq | hm
      · injection heq with h1
        rw [h1]
        simp
      · exact List.mem_cons_of_mem _ (ih c hm)

theorem runsOk_of_bounds (L : Nat) : ∀ bs : List Blk,
    (∀ k, Blk.run k ∈ bs → 1 ≤ k ∧ k ≤ L) → runsOk L bs = true := by
  intro bs
  induction bs with
  | nil => intro _; rfl
  | cons b t ih =>
    intro h
    cases b with
    | ch c =>
      show runsOk L t = true
      exact ih (fun k hk => h k (List.mem_cons_of_mem _ hk))
    | run k =>
      have hb := h k (by simp)
      show ((decide (1 ≤ k) && decide (k ≤ L)) && runsOk L t) = true
      rw [ih (fun k2 hk2 => h k2 (List.mem_cons_of_mem _ hk2))]
      simp [hb.1, hb.2]

theorem blocksMax_append_ch (c : Char) (hc : ¬ c = '1') (b : Str) :
    ∀ a : Str, blocksMax (a ++ c :: b) = blocksMax a ++ .ch c :: blocksMax b := by
  intro a
  induction a with
  | nil =>
    show blocksMax (c :: b) = .ch c :: blocksMax b
    rw [blocksMax]
    rw [if_neg hc]
  | cons x a2 ih =>
    by_cases hx : x = '1'
    · subst hx
      show blocksMax ('1' :: (a2 ++ c :: b)) = blocksMax ('1' :: a2) ++ .ch c :: blocksMax b
      rw [show blocksMax ('1' :: (a2 ++ c :: b))
          = (match blocksMax (a2 ++ c :: b) with
             | .run k :: bs => .run (k + 1) :: bs
             | bs => .run 1 :: bs) from by rw [blocksMax]; rw [if_pos rfl]]
      rw [show blocksMax ('1' :: a2)
          = (match blocksMax a2 with
             | .run k :: bs => .run (k + 1) :: bs
             | bs => .run 1 :: bs) from by rw [blocksMax]; rw [if_pos rfl]]
      rw [ih]
      rcases hb : blocksMax a2 with _ | ⟨bb, bs⟩
      · rfl
      · cases bb <;> rfl
    · show blocksMax (x :: (a2 ++ c :: b)) = blocksMax (x :: a2) ++ .ch c :: blocksMax b
      rw [show blocksMax (x :: (a2 ++ c :: b)) = .ch x :: blocksMax (a2 ++ c :: b) from by
        rw [blocksMax]; rw [if_neg hx]]
      rw [show blocksMax (x :: a2) = .ch x :: blocksMax a2 from by
        rw [blocksMax]; rw [if_neg hx]]
      rw [ih]
      rfl

theorem passAllB_append (a b : List Blk) : passAllB (a ++ b) = passAllB a ++ passAllB b := by
  unfold passAllB passB
  simp [List.map_append]

/-- The composed squeeze passes on a single block. -/
def passChainOne (b : Blk) : Blk :=
  passOne 2 '2' (passOne 3 '3' (passOne 4 '4' (passOne 5 '5'
    (passOne 6 '6' (passOne 7 '7' (passOne 8 '8' b))))))

theorem passAllB_cons (b : Blk) (t : List Blk) :
    passAllB (b :: t) = passChainOne b :: passAllB t := rfl

theorem runsOk_append_ch (L : Nat) (c : Char) : ∀ (a b : List Blk),
    runsOk L a = true → runsOk L b = true → runsOk L (a ++ .ch c :: b) = true := by
  intro a b
  induction a with
  | nil => intro _ hb; exact hb
  | cons x t ih =>
    intro ha hb
    cases x with
    | ch c2 => exact ih ha hb
    | run k =>
      rw [show runsOk L (Blk.run k :: t)
          = ((decide (1 ≤ k) && decide (k ≤ L)) && runsOk L t) from rfl,
        Bool.and_eq_true] at ha
      show ((decide (1 ≤ k) && decide (k ≤ L)) && runsOk L (t ++ .ch c :: b)) = true
      rw [Bool.and_eq_true]
      exact ⟨ha.1, ih ha.2 hb⟩

theorem headNotRun_append_ch (c : Char) (b : List Blk) :
    ∀ a : List Blk, headNotRun a = true → headNotRun (a ++ .ch c :: b) = true := by
  intro a ha
  cases a with
  | nil => rfl
  | cons x t =>
    cases x with
    | ch c2 => rfl
    | run k => cases ha

theorem noAdjRun_append_ch (c : Char) : ∀ (a b : List Blk),
    noAdjRun a = true → noAdjRun b = true → noAdjRun (a ++ .ch c :: b) = true := by
  intro a b
  induction a with
  | nil =>
    intro _ hb
    show noAdjRun (Blk.ch c :: b) = true
    exact hb
  | cons x t ih =>
    intro ha hb
    cases x with
    | ch c2 =>
      show noAdjRun (t ++ .ch c :: b) = true
      exact ih ha hb
    | run k =>
      rw [show noAdjRun (Blk.run k :: t) = (headNotRun t && noAdjRun t) from rfl,
        Bool.and_eq_true] at ha
      show (headNotRun (t ++ .ch c :: b) && noAdjRun (t ++ .ch c :: b)) = true
      rw [headNotRun_append_ch c b t ha.1, ih ha.2 hb]
      rfl

theorem chOkB_append_ch (c : Char) (hc : ¬ c = '1') : ∀ (a b : List Blk),
    chOkB a = true → chOkB b = true → chOkB (a ++ .ch c :: b) = true := by
  intro a b
  induction a with
  | nil =>
    intro _ hb
    show (!(c = '1' : Bool) && chOkB b) = true
    rw [hb]
    simp [hc]
  | cons x t ih =>
    intro ha hb
    cases x with
    | ch c2 =>
      rw [show chOkB (Blk.ch c2 :: t) = (!(c2 = '1' : Bool) && chOkB t) from rfl,
        Bool.and_eq_true] at ha
      show (!(c2 = '1' : Bool) && chOkB (t ++ .ch c :: b)) = true
      rw [ha.1, ih ha.2 hb]
      rfl
    | run k =>
      show chOkB (t ++ .ch c :: b) = true
      exact ih ha hb

theorem joinSlash_run_le : ∀ rows : List Str,
    (∀ r ∈ rows, r.length ≤ 8 ∧ ('/' : Char) ∉ r) →
    ∀ k, Blk.run k ∈ blocksMax (joinSlash rows) → k ≤ 8 := by
  intro rows
  induction rows with
  | nil => intro _ k hk; cases hk
  | cons r rest ih =>
    cases rest with
    | nil =>
      intro hrow k hk
      exact Nat.le_trans (blocksMax_run_le r k hk) (hrow r (by simp)).1
    | cons r2 t2 =>
      intro hrow k hk
      rw [show joinSlash (r :: r2 :: t2) = r ++ '/' :: joinSlash (r2 :: t2) from rfl,
        blocksMax_append_ch '/' (by decide) _ r] at hk
      rcases List.mem_append.mp hk with hm | hm
      · exact Nat.le_trans (blocksMax_run_le r k hm) (hrow r (by simp)).1
      · rcases List.mem_cons.mp hm with heq | hm2
        · cases heq
        · exact ih (fun x hx => hrow x (List.mem_cons_of_mem r hx)) k hm2

/-- Squeezing distributes over the eight ranks joined by slashes. -/
theorem squeeze_joinSlash : ∀ rows : List Str, rows ≠ [] →
    (∀ r ∈ rows, r.length ≤ 8 ∧ ('/' : Char) ∉ r) →
    squeezeFenEmptySquares (joinSlash rows) = joinSlash (rows.map squeezeFenEmptySquares) := by
  intro rows
  induction rows with
  | nil => intro h _; exact absurd rfl h
  | cons r rest ih =>
    intro _ hprops
    cases rest with
    | nil => rfl
    | cons r2 t2 =>
      show squeezeFenEmptySquares (r ++ '/' :: joinSlash (r2 :: t2))
        = squeezeFenEmptySquares r ++ '/' :: joinSlash (List.map squeezeFenEmptySquares (r2 :: t2))
      have hr := hprops r (by simp)
      have hrest : ∀ x ∈ r2 :: t2, x.length ≤ 8 ∧ ('/' : Char) ∉ x :=
        fun x hx => hprops x (List.mem_cons_of_mem r hx)
      have hdec := blocksMax_append_ch '/' (by decide) (joinSlash (r2 :: t2)) r
      have hwfr : runsOk 8 (blocksMax r) = true := by
        apply runsOk_of_bounds
        intro k hk
        exact ⟨blocksMax_run_ge r k hk, Nat.le_trans (blocksMax_run_le r k hk) hr.1⟩
      have hwfj : runsOk 8 (blocksMax (joinSlash (r2 :: t2))) = true := by
        apply runsOk_of_bounds
        intro k hk
        exact ⟨blocksMax_run_ge _ k hk, joinSlash_run_le (r2 :: t2) hrest k hk⟩
      have hstep : squeezeFenEmptySquares (r ++ '/' :: joinSlash (r2 :: t2))
          = flatB (passAllB (blocksMax (r ++ '/' :: joinSlash (r2 :: t2)))) := by
        conv_lhs => rw [← flatB_blocksMax (r ++ '/' :: joinSlash (r2 :: t2))]
        apply squeeze_flatB
        · rw [hdec]
          exact runsOk_append_ch 8 '/' _ _ hwfr hwfj
        · rw [hdec]
          exact noAdjRun_append_ch '/' _ _ (noAdjRun_blocksMax r) (noAdjRun_blocksMax _)
        · rw [hdec]
          exact chOkB_append_ch '/' (by decide) _ _ (chOkB_blocksMax r) (chOkB_blocksMax _)
      rw [hstep, hdec, passAllB_append, flatB_append, passAllB_cons]
      have hchslash : passChainOne (Blk.ch '/') = Blk.ch '/' := rfl
      rw [hchslash]
      rw [show flatB (Blk.ch '/' :: passAllB (blocksMax (joinSlash (r2 :: t2))))
          = '/' :: flatB (passAllB (blocksMax (joinSlash (r2 :: t2)))) from rfl]
      congr 1
      · rw [← squeeze_flatB (blocksMax r) hwfr (noAdjRun_blocksMax r) (chOkB_blocksMax r),
          flatB_blocksMax]
      · congr 1
        rw [← squeeze_flatB (blocksMax (joinSlash (r2 :: t2))) hwfj
          (noAdjRun_blocksMax _) (chOkB_blocksMax _), flatB_blocksMax]
        exact ih (by simp) hrest

theorem expand_passAllB : ∀ bs : List Blk, runsOk 8 bs = true →
    (∀ c, Blk.ch c ∈ bs → (['2','3','4','5','6','7','8'] : List Char).contains c = false) →
    cmap expandC (flatB (passAllB bs)) = flatB bs := by
  intro bs
  induction bs with
  | nil => intro _ _; rfl
  | cons b t ih =>
    intro hr hch
    cases b with
    | ch c =>
      have hr2 : runsOk 8 t = true := hr
      have hch2 : ∀ c2, Blk.ch c2 ∈ t → (['2','3','4','5','6','7','8'] : List Char).contains c2 = false :=
        fun c2 hc2 => hch c2 (List.mem_cons_of_mem _ hc2)
      have hIH := ih hr2 hch2
      rw [passAllB_cons]
      rw [show passChainOne (Blk.ch c) = Blk.ch c from rfl]
      rw [show flatB (Blk.ch c :: passAllB t) = c :: flatB (passAllB t) from rfl]
      rw [show cmap expandC (c :: flatB (passAllB t))
          = expandC c ++ cmap expandC (flatB (passAllB t)) from rfl]
      rw [hIH]
      unfold expandC
      rw [if_neg ?_]
      · rfl
      · rw [hch c (by simp)]
        simp
    | run k =>
      rw [show runsOk 8 (Blk.run k :: t)
          = ((decide (1 ≤ k) && decide (k ≤ 8)) && runsOk 8 t) from rfl,
        Bool.and_eq_true, Bool.and_eq_true] at hr
      have hk1 : 1 ≤ k := of_decide_eq_true hr.1.1
      have hk8 : k ≤ 8 := of_decide_eq_true hr.1.2
      have hch2 : ∀ c2, Blk.ch c2 ∈ t → (['2','3','4','5','6','7','8'] : List Char).contains c2 = false :=
        fun c2 hc2 => hch c2 (List.mem_cons_of_mem _ hc2)
      have hIH := ih hr.2 hch2
      rw [passAllB_cons]
      rw [show passChainOne (Blk.run k) :: passAllB t
          = [passChainOne (Blk.run k)] ++ passAllB t from rfl, flatB_append, cmap_append, hIH]
      rw [show Blk.run k :: t = [Blk.run k] ++ t from rfl, flatB_append]
      congr 1
      interval_cases k <;> decide

theorem cellsF_ones (L : Nat) : cellsF (ones L) = List.replicate L none := by
  induction L with
  | zero => rfl
  | succ m ih =>
    show cellsF ('1' :: ones m) = none :: List.replicate m none
    rw [show cellsF ('1' :: ones m) = cellsC '1' ++ cellsF (ones m) from rfl, ih]
    rfl

theorem cellsF_squeezeFen (s : Str) :
    cellsF (squeezeFenEmptySquares s) = cellsF s := by
  unfold squeezeFenEmptySquares
  rw [cells_replaceAll (ones 2) ['2'] (by decide) (by rw [cellsF_ones]; decide)]
  rw [cells_replaceAll (ones 3) ['3'] (by decide) (by rw [cellsF_ones]; decide)]
  rw [cells_replaceAll (ones 4) ['4'] (by decide) (by rw [cellsF_ones]; decide)]
  rw [cells_replaceAll (ones 5) ['5'] (by decide) (by rw [cellsF_ones]; decide)]
  rw [cells_replaceAll (ones 6) ['6'] (by decide) (by rw [cellsF_ones]; decide)]
  rw [cells_replaceAll (ones 7) ['7'] (by decide) (by rw [cellsF_ones]; decide)]
  rw [cells_replaceAll (ones 8) ['8'] (by decide) (by rw [cellsF_ones]; decide)]

theorem mem_squeezeFen (s : Str) (c : Char) (h : c ∈ squeezeFenEmptySquares s) :
    c ∈ s ∨ c ∈ (['2','3','4','5','6','7','8'] : List Char) := by
  unfold squeezeFenEmptySquares at h
  rcases mem_replaceAll (ones 2) ['2'] (by decide) _ c h with h2 | h2
  · rcases mem_replaceAll (ones 3) ['3'] (by decide) _ c h2 with h3 | h3
    · rcases mem_replaceAll (ones 4) ['4'] (by decide) _ c h3 with h4 | h4
      · rcases mem_replaceAll (ones 5) ['5'] (by decide) _ c h4 with h5 | h5
        · rcases mem_replaceAll (ones 6) ['6'] (by decide) _ c h5 with h6 | h6
          · rcases mem_replaceAll (ones 7) ['7'] (by decide) _ c h6 with h7 | h7
            · rcases mem_replaceAll (ones 8) ['8'] (by decide) _ c h7 with h8 | h8
              · exact Or.inl h8
              · rcases List.mem_singleton.mp h8 with rfl; right; decide
            · rcases List.mem_singleton.mp h7 with rfl; right; decide
          · rcases List.mem_singleton.mp h6 with rfl; right; decide
        · rcases List.mem_singleton.mp h5 with rfl; right; decide
      · rcases List.mem_singleton.mp h4 with rfl; right; decide
    · rcases List.mem_singleton.mp h3 with rfl; right; decide
  · rcases List.mem_singleton.mp h2 with rfl; right; decide

theorem range_map_getD {α : Type} (d : α) : ∀ (l : List α) (n : Nat), l.length = n →
    (List.range n).map (fun j => l.getD j d) = l := by
  intro l
  induction l with
  | nil =>
    intro n hn
    rw [← hn]
    rfl
  | cons x t ih =>
    intro n hn
    cases n with
    | zero => cases hn
    | succ m =>
      rw [List.range_succ_eq_map, List.map_cons, List.map_map]
      have h1 : (x :: t).getD 0 d = x := rfl
      rw [h1]
      congr 1
      have heq : ((fun j => (x :: t).getD j d) ∘ Nat.succ) = (fun j => t.getD j d) := by
        funext j; rfl
      rw [heq]
      exact ih m (by simpa using hn)

theorem range_map_getD_lt {α : Type} (d : α) (f : Nat → α) (n j : Nat) (hj : j < n) :
    ((List.range n).map f).getD j d = f j := by
  have hlt : j < ((List.range n).map f).length := by simpa using hj
  rw [List.getD_eq_getElem _ _ hlt]
  simp

theorem cellsF_rawFenRow (o : Obj) (hv : isValidPositionObject o = true) (r : Nat) :
    cellsF (rawFenRow o r) = (List.range 8).map (fun j => objGet o [colCh j, digitCh r]) := by
  rw [rawFenRow]
  simp only [colCh_eq]
  generalize List.range 8 = idxs
  induction idxs with
  | nil => rfl
  | cons j t ih =>
    rw [List.map_cons, List.map_cons]
    rw [show cellsF ((match objGet o [colCh j, digitCh r] with
        | some pc => pieceCodeToFen pc
        | none => '1') :: List.map (fun j => match objGet o [colCh j, digitCh r] with
        | some pc => pieceCodeToFen pc
        | none => '1') t)
        = cellsC (match objGet o [colCh j, digitCh r] with
          | some pc => pieceCodeToFen pc
          | none => '1') ++ cellsF (List.map (fun j => match objGet o [colCh j, digitCh r] with
          | some pc => pieceCodeToFen pc
          | none => '1') t) from rfl]
    rw [ih]
    rcases hg : objGet o [colCh j, digitCh r] with _ | pc
    · rw [show cellsC '1' = [none] from by decide]
      rfl
    · have hpc := objGet_valid_piece o _ _ hv hg
      have hchars := piece_fen_chars pc hpc
      rw [show cellsC (pieceCodeToFen pc)
          = [some (fenToPieceCode (pieceCodeToFen pc))] from by
        rw [cellsC, if_neg (by rw [hchars.1]; simp)]]
      rw [hchars.2.1]
      rfl

theorem rawFenRow_length (o : Obj) (r : Nat) : (rawFenRow o r).length = 8 := by
  rw [rawFenRow]
  simp

theorem cellsF_rawFenRow_length (o : Obj) (hv : isValidPositionObject o = true) (r : Nat) :
    (cellsF (rawFenRow o r)).length = 8 := by
  rw [cellsF_rawFenRow o hv r]
  simp

theorem rawFenRow_chars (o : Obj) (hv : isValidPositionObject o = true) (r : Nat) :
    ∀ c ∈ rawFenRow o r, isExpandedFenChar c = true ∧ ¬ c = '/' ∧ ¬ c = ' ' := by
  intro c hc
  rw [rawFenRow] at hc
  rcases List.mem_map.mp hc with ⟨j, _, hj⟩
  rcases hg : objGet o [COLUMNS.getD j '?', digitCh r] with _ | pc
  · rw [hg] at hj
    rw [← hj]
    refine ⟨by decide, by decide, by decide⟩
  · rw [hg] at hj
    have hpc := objGet_valid_piece o _ _ hv hg
    have hchars := piece_fen_chars pc hpc
    rw [← hj]
    exact ⟨hchars.2.2.2.1, hchars.2.2.2.2.1, hchars.2.2.2.2.2.1⟩

/-!
### Layer H: the two round-trip directions
-/

theorem map_congr_mem {α β : Type} (f g : α → β) : ∀ l : List α,
    (∀ a ∈ l, f a = g a) → l.map f = l.map g := by
  intro l
  induction l with
  | nil => intro _; rfl
  | cons x t ih =>
    intro h
    rw [List.map_cons, List.map_cons, h x (by simp), ih (fun a ha => h a (List.mem_cons_of_mem x ha))]

theorem expandedChar_not_digit28 (c : Char) (h : isExpandedFenChar c = true) :
    (['2','3','4','5','6','7','8'] : List Char).contains c = false := by
  have hm : c ∈ (['k','q','r','n','b','p','K','Q','R','N','B','P','1'] : List Char) := by
    simpa [isExpandedFenChar] using h
  fin_cases hm <;> decide

theorem expand_squeeze_row (r : Str) (hlen : r.length ≤ 8)
    (hchars : ∀ c ∈ r, isExpandedFenChar c = true) :
    cmap expandC (squeezeFenEmptySquares r) = r := by
  have hwfr : runsOk 8 (blocksMax r) = true := by
    apply runsOk_of_bounds
    intro k hk
    exact ⟨blocksMax_run_ge r k hk, Nat.le_trans (blocksMax_run_le r k hk) hlen⟩
  have h1 : squeezeFenEmptySquares r = flatB (passAllB (blocksMax r)) := by
    conv_lhs => rw [← flatB_blocksMax r]
    exact squeeze_flatB (blocksMax r) hwfr (noAdjRun_blocksMax r) (chOkB_blocksMax r)
  rw [h1]
  rw [expand_passAllB (blocksMax r) hwfr ?_]
  · exact flatB_blocksMax r
  · intro c hc
    exact expandedChar_not_digit28 c (hchars c (blocksMax_ch_mem r c hc))

/-- Round trip 1: serializing a valid position and parsing the result gives
back the same position, pointwise. -/
theorem fenToObj_objToFen (p : Obj) (hv : isValidPositionObject p = true) :
    ∃ f qq, objToFen p = some f ∧ fenToObj f = some qq ∧ (∀ k, objGet qq k = objGet p k) := by
  have hrowmem : ∀ r ∈ rawFenRows p, ∃ rr, r = rawFenRow p rr := by
    intro r hr
    rw [rawFenRows] at hr
    rcases List.mem_map.mp hr with ⟨i, _, rfl⟩
    exact ⟨8 - i, rfl⟩
  have hchars : ∀ r ∈ rawFenRows p, ∀ c ∈ r,
      isExpandedFenChar c = true ∧ ¬ c = '/' ∧ ¬ c = ' ' := by
    intro r hr
    rcases hrowmem r hr with ⟨rr, rfl⟩
    exact rawFenRow_chars p hv rr
  have hlen : ∀ r ∈ rawFenRows p, r.length = 8 := by
    intro r hr
    rcases hrowmem r hr with ⟨rr, rfl⟩
    exact rawFenRow_length p rr
  have hne : rawFenRows p ≠ [] := by rw [rawFenRows]; simp
  have hnoslash : ∀ r ∈ rawFenRows p, ('/' : Char) ∉ r :=
    fun r hr hm => (hchars r hr '/' hm).2.1 rfl
  have hrowslen : (rawFenRows p).length = 8 := by rw [rawFenRows]; simp
  have hobjf : objToFen p = some (squeezeFenEmptySquares (joinSlash (rawFenRows p))) := by
    rw [objToFen, if_pos hv]
  have hA : squeezeFenEmptySquares (joinSlash (rawFenRows p))
      = joinSlash ((rawFenRows p).map squeezeFenEmptySquares) :=
    squeeze_joinSlash (rawFenRows p) hne
      (fun r hr => ⟨Nat.le_of_eq (hlen r hr), hnoslash r hr⟩)
  have hB : expandFenEmptySquares (squeezeFenEmptySquares (joinSlash (rawFenRows p)))
      = joinSlash (rawFenRows p) := by
    rw [hA, expandFen_eq_cmap, joinSlash_cmap expandC (by decide), List.map_map]
    congr 1
    rw [show (cmap expandC ∘ squeezeFenEmptySquares) = fun r => cmap expandC (squeezeFenEmptySquares r) from rfl]
    have := map_congr_mem (fun r => cmap expandC (squeezeFenEmptySquares r)) (fun r => r)
      (rawFenRows p) (fun r hr => expand_squeeze_row r (Nat.le_of_eq (hlen r hr))
        (fun c hc => (hchars r hr c hc).1))
    rw [this]
    exact List.map_id (rawFenRows p)
  have hnospacef : (' ' : Char) ∉ squeezeFenEmptySquares (joinSlash (rawFenRows p)) := by
    intro hm
    rcases mem_squeezeFen _ _ hm with hm2 | hm2
    · rcases mem_joinSlash _ ' ' hm2 with hs | ⟨r, hr, hcr⟩
      · cases hs
      · exact (hchars r hr ' ' hcr).2.2 rfl
    · exact absurd hm2 (by decide)
  have hcut : cutSpaceTail (squeezeFenEmptySquares (joinSlash (rawFenRows p)))
      = squeezeFenEmptySquares (joinSlash (rawFenRows p)) := cutSpaceTail_id _ hnospacef
  have hsplitraw : splitSlash (joinSlash (rawFenRows p)) = rawFenRows p :=
    splitSlash_joinSlash _ hne hnoslash
  have hvalidf : isValidFen (squeezeFenEmptySquares (joinSlash (rawFenRows p))) = true := by
    show ((splitSlash (expandFenEmptySquares (cutSpaceTail _))).length == 8
      && (splitSlash (expandFenEmptySquares (cutSpaceTail _))).all
          (fun ch => ch.length == 8 && ch.all isExpandedFenChar)) = true
    rw [hcut, hB, hsplitraw, Bool.and_eq_true]
    constructor
    · simp [hrowslen]
    · rw [List.all_eq_true]
      intro r hr
      rw [Bool.and_eq_true]
      constructor
      · simp [hlen r hr]
      · rw [List.all_eq_true]
        intro c hc
        exact (hchars r hr c hc).1
  have hsplitf : splitSlash (squeezeFenEmptySquares (joinSlash (rawFenRows p)))
      = (rawFenRows p).map squeezeFenEmptySquares := by
    rw [hA]
    apply splitSlash_joinSlash
    · intro hcon
      rw [List.map_eq_nil_iff] at hcon
      exact hne hcon
    · intro r2 hr2
      rcases List.mem_map.mp hr2 with ⟨r, hr, rfl⟩
      intro hm
      rcases mem_squeezeFen r '/' hm with hm2 | hm2
      · exact hnoslash r hr hm2
      · exact absurd hm2 (by decide)
  have hrows2len : ((rawFenRows p).map squeezeFenEmptySquares).length = 8 := by
    rw [List.length_map, hrowslen]
  have hcells2 : ∀ r2 ∈ (rawFenRows p).map squeezeFenEmptySquares, (cellsF r2).length = 8 := by
    intro r2 hr2
    rcases List.mem_map.mp hr2 with ⟨r, hr, rfl⟩
    rcases hrowmem r hr with ⟨rr, rfl⟩
    rw [cellsF_squeezeFen]
    exact cellsF_rawFenRow_length p hv rr
  have hfobj : fenToObj (squeezeFenEmptySquares (joinSlash (rawFenRows p)))
      = some (parseFenRows ((rawFenRows p).map squeezeFenEmptySquares) 8 []) := by
    rw [fenToObj, if_pos hvalidf, hcut, hsplitf]
  refine ⟨_, _, hobjf, hfobj, ?_⟩
  intro k
  by_cases hvk : isValidSquare k = true
  · rcases square_shape k hvk with ⟨j, rr, hj, hrr1, hrr8, rfl⟩
    rw [parseFenRows_get ((rawFenRows p).map squeezeFenEmptySquares) 8 [] hrows2len.symm
      (Nat.le_refl 8) hcells2 j rr hj hrr1 hrr8 (by intro jj rr2 _ _ _; rfl)]
    have hgd : ((rawFenRows p).map squeezeFenEmptySquares).getD (8 - rr) []
        = squeezeFenEmptySquares (rawFenRow p rr) := by
      rw [rawFenRows, List.map_map]
      rw [range_map_getD_lt [] _ 8 (8 - rr) (by omega)]
      show squeezeFenEmptySquares (rawFenRow p (8 - (8 - rr))) = _
      have harith : 8 - (8 - rr) = rr := by omega
      rw [harith]
    rw [hgd, cellsF_squeezeFen, cellsF_rawFenRow p hv rr]
    rw [range_map_getD_lt none _ 8 j hj]
  · have hvkf : isValidSquare k = false := by
      revert hvk; cases isValidSquare k <;> simp
    rw [objGet_none_invalid p k hv hvkf]
    apply objGet_none_of_no_entry
    intro e he hcon
    rcases parseFenRows_entries ((rawFenRows p).map squeezeFenEmptySquares) 8 []
      hrows2len.symm hcells2 e he with hm | ⟨jj, rr, c, h1, h2, h3, _, _, h6⟩
    · cases hm
    · have hkv : isValidSquare e.1 = true := by
        rw [h6]
        exact sqKey_valid jj h1 rr (by omega) h2
      rw [hcon, hvkf] at hkv
      cases hkv

theorem canonical_no_space (f : Str) (h : canonicalFen f = true) :
    cutSpaceTail f = f := by
  rw [canonicalFen, Bool.and_eq_true] at h
  have hall := List.all_eq_true.mp h.2
  apply cutSpaceTail_id
  intro hm
  rw [← joinSlash_splitSlash f] at hm
  rcases mem_joinSlash _ _ hm with hs | ⟨r, hr, hc⟩
  · cases hs
  · have hprops := hall r hr
    rw [Bool.and_eq_true, Bool.and_eq_true] at hprops
    have := List.all_eq_true.mp hprops.1.1 ' ' hc
    cases this

theorem rankChar_letter (c : Char) (h : isRankChar c = true) (hd : isDigit18 c = false) :
    isExpandedFenChar c = true ∧ ¬ c = '1' := by
  have hm : c ∈ (['k','q','r','n','b','p','K','Q','R','N','B','P',
      '1','2','3','4','5','6','7','8'] : List Char) := by
    simpa [isRankChar] using h
  fin_cases hm <;> first
    | exact ⟨by decide, by decide⟩
    | exact absurd hd (by decide)

theorem expandC_digit (c : Char) (h : isDigit18 c = true) :
    expandC c = ones (digitVal c) := by
  have hm := isDigit18_mem c h
  fin_cases hm <;> decide

theorem not_digit18_not28 (c : Char) (h : isDigit18 c = false) :
    (['2','3','4','5','6','7','8'] : List Char).contains c = false := by
  rcases hcon : (['2','3','4','5','6','7','8'] : List Char).contains c with _ | _
  · rfl
  · exfalso
    have hm : c ∈ (['2','3','4','5','6','7','8'] : List Char) := by simpa using hcon
    have hm2 : c ∈ (['1','2','3','4','5','6','7','8'] : List Char) := by
      fin_cases hm <;> decide
    have : isDigit18 c = true := by simpa [isDigit18] using hm2
    rw [h] at this
    cases this

theorem mem_cmap_of_mem (f : Char → Str) : ∀ (s : Str) (c c2 : Char),
    c ∈ s → c2 ∈ f c → c2 ∈ cmap f s := by
  intro s
  induction s with
  | nil => intro c c2 hc _; cases hc
  | cons x t ih =>
    intro c c2 hc hc2
    rcases List.mem_cons.mp hc with rfl | hm
    · exact List.mem_append.mpr (Or.inl hc2)
    · exact List.mem_append.mpr (Or.inr (ih c c2 hm hc2))

theorem fenToObj_valid (f : Str) (o : Obj) (h : fenToObj f = some o) :
    isValidPositionObject o = true := by
  rw [fenToObj] at h
  by_cases hvf : isValidFen f = true
  · rw [if_pos hvf] at h
    injection h with h2
    have hvf2 : ((splitSlash (expandFenEmptySquares (cutSpaceTail f))).length == 8
        && (splitSlash (expandFenEmptySquares (cutSpaceTail f))).all
            (fun ch => ch.length == 8 && ch.all isExpandedFenChar)) = true := hvf
    rw [Bool.and_eq_true] at hvf2
    rw [expandFen_eq_cmap, splitSlash_cmap expandC (by decide) expandC_no_slash] at hvf2
    have hrowslen : (splitSlash (cutSpaceTail f)).length = 8 := by
      have := hvf2.1
      simpa using this
    have hall := List.all_eq_true.mp hvf2.2
    have hcells : ∀ r ∈ splitSlash (cutSpaceTail f), (cellsF r).length = 8 := by
      intro r hr
      have hprop := hall (cmap expandC r) (List.mem_map_of_mem (cmap expandC) hr)
      rw [Bool.and_eq_true] at hprop
      have := hprop.1
      rw [← length_cmap_expandC]
      simpa using this
    rw [isValidPositionObject, List.all_eq_true]
    intro e he
    rw [← h2] at he
    rcases parseFenRows_entries (splitSlash (cutSpaceTail f)) 8 [] hrowslen.symm hcells e he
      with hm | ⟨jj, rr, c, hj, hr1, hr8, hd, ⟨r, hrm, hcm⟩, he2⟩
    · cases hm
    · rw [Bool.and_eq_true, he2]
      constructor
      · exact sqKey_valid jj hj rr (by omega) hr1
      · have hexp : c ∈ cmap expandC r := by
          apply mem_cmap_of_mem expandC r c c hcm
          unfold expandC
          rw [if_neg (by rw [not_digit18_not28 c hd]; simp)]
          simp
        have hprop := hall (cmap expandC r) (List.mem_map_of_mem (cmap expandC) hrm)
        rw [Bool.and_eq_true] at hprop
        have hcval := List.all_eq_true.mp hprop.2 c hexp
        have hc1 : ¬ c = '1' := by
          intro hcc
          rw [hcc] at hd
          cases hd
        exact (letter_piece_chars c hcval hc1).1
  · rw [if_neg hvf] at h
    cases h

/-- The cell-to-character rendering `objToFen` performs per square. -/
def renderCell : Option Str → Char
  | some pc => pieceCodeToFen pc
  | none => '1'

theorem range_map_getD_comp {α β : Type} (d : α) (g : α → β) (l : List α) (n : Nat)
    (h : l.length = n) :
    (List.range n).map (fun j => g (l.getD j d)) = l.map g := by
  have h1 := range_map_getD d l n h
  have h2 : (List.range n).map (fun j => g (l.getD j d))
      = ((List.range n).map (fun j => l.getD j d)).map g := by
    rw [List.map_map]
    rfl
  rw [h2, h1]

theorem renderCells_cellsF (r : Str) (hchars : ∀ c ∈ r, isRankChar c = true) :
    (cellsF r).map renderCell = cmap expandC r := by
  induction r with
  | nil => rfl
  | cons c t ih =>
    have hct : ∀ c2 ∈ t, isRankChar c2 = true := fun c2 h => hchars c2 (List.mem_cons_of_mem c h)
    rw [show cellsF (c :: t) = cellsC c ++ cellsF t from rfl, List.map_append, ih hct]
    rw [show cmap expandC (c :: t) = expandC c ++ cmap expandC t from rfl]
    congr 1
    by_cases hd : isDigit18 c = true
    · rw [cellsC, if_pos hd, expandC_digit c hd, List.map_replicate]
      rfl
    · have hdf : isDigit18 c = false := by revert hd; cases isDigit18 c <;> simp
      have hrc := rankChar_letter c (hchars c (by simp)) hdf
      rw [cellsC, if_neg (by rw [hdf]; simp)]
      unfold expandC
      rw [if_neg (by rw [not_digit18_not28 c hdf]; simp)]
      show [renderCell (some (fenToPieceCode c))] = [c]
      rw [show renderCell (some (fenToPieceCode c)) = pieceCodeToFen (fenToPieceCode c) from rfl]
      rw [(letter_piece_chars c hrc.1 hrc.2).2]

/-- Round trip 2: parsing a canonical FEN and serializing the result gives
back the same string. -/
theorem objToFen_fenToObj (f : Str) (hc : canonicalFen f = true) :
    ∃ qq, fenToObj f = some qq ∧ objToFen qq = some f := by
  have hvf := canonical_isValidFen f hc
  have hcut := canonical_no_space f hc
  rw [canonicalFen, Bool.and_eq_true] at hc
  have hrowslen : (splitSlash f).length = 8 := by
    have := hc.1; simpa using this
  have hall := List.all_eq_true.mp hc.2
  have hcells : ∀ r ∈ splitSlash f, (cellsF r).length = 8 := by
    intro r hr
    have hprop := hall r hr
    rw [Bool.and_eq_true, Bool.and_eq_true] at hprop
    have := hprop.1.2
    simpa using this
  have hchars : ∀ r ∈ splitSlash f, ∀ c ∈ r, isRankChar c = true := by
    intro r hr
    have hprop := hall r hr
    rw [Bool.and_eq_true, Bool.and_eq_true] at hprop
    exact List.all_eq_true.mp hprop.1.1
  have hfobj : fenToObj f = some (parseFenRows (splitSlash f) 8 []) := by
    rw [fenToObj, if_pos hvf, hcut]
  have hqv : isValidPositionObject (parseFenRows (splitSlash f) 8 []) = true :=
    fenToObj_valid f _ hfobj
  refine ⟨_, hfobj, ?_⟩
  rw [objToFen, if_pos hqv]
  congr 1
  have hraw : rawFenRows (parseFenRows (splitSlash f) 8 [])
      = (splitSlash f).map (cmap expandC) := by
    rw [rawFenRows]
    have hrow : ∀ i, i < 8 → rawFenRow (parseFenRows (splitSlash f) 8 []) (8 - i)
        = cmap expandC ((splitSlash f).getD i []) := by
      intro i hi
      rw [rawFenRow]
      simp only [colCh_eq]
      have hlookup : ∀ j, j < 8 → objGet (parseFenRows (splitSlash f) 8 [])
          [colCh j, digitCh (8 - i)]
          = (cellsF ((splitSlash f).getD i [])).getD j none := by
        intro j hj
        rw [parseFenRows_get (splitSlash f) 8 [] hrowslen.symm (Nat.le_refl 8) hcells j (8 - i)
          hj (by omega) (by omega) (by intro jj rr2 _ _ _; rfl)]
        have harith : 8 - (8 - i) = i := by omega
        rw [harith]
      have hmapped : (List.range 8).map (fun j =>
          match objGet (parseFenRows (splitSlash f) 8 []) [colCh j, digitCh (8 - i)] with
          | some pc => pieceCodeToFen pc
          | none => '1')
          = (List.range 8).map (fun j =>
            renderCell ((cellsF ((splitSlash f).getD i [])).getD j none)) := by
        apply map_congr_mem
        intro j hj
        rw [hlookup j (by simpa using hj)]
        rfl
      rw [hmapped]
      rw [range_map_getD_comp none renderCell (cellsF ((splitSlash f).getD i [])) 8 ?_]
      · have hmem : ((splitSlash f).getD i []) ∈ splitSlash f := by
          rw [List.getD_eq_getElem (splitSlash f) [] (by omega)]
          exact List.getElem_mem (by omega)
        exact renderCells_cellsF _ (hchars _ hmem)
      · have hmem : ((splitSlash f).getD i []) ∈ splitSlash f := by
          rw [List.getD_eq_getElem (splitSlash f) [] (by omega)]
          exact List.getElem_mem (by omega)
        exact hcells _ hmem
    have : (List.range 8).map (fun i => rawFenRow (parseFenRows (splitSlash f) 8 []) (8 - i))
        = (List.range 8).map (fun i => cmap expandC ((splitSlash f).getD i [])) := by
      apply map_congr_mem
      intro i hi
      exact hrow i (by simpa using hi)
    rw [this]
    exact range_map_getD_comp [] (cmap expandC) (splitSlash f) 8 hrowslen
  rw [hraw]
  rw [← joinSlash_cmap expandC (by decide) (splitSlash f)]
  rw [joinSlash_splitSlash f]
  rw [← expandFen_eq_cmap]
  exact canonical_squeeze_expand f (by rw [canonicalFen, Bool.and_eq_true]; exact hc)

theorem isValidFen_START : isValidFen START_FEN = true := by
  unfold isValidFen
  rw [expandFen_eq_cmap]
  decide

theorem fenToObj_START : fenToObj START_FEN
    = some (parseFenRows (splitSlash (cutSpaceTail START_FEN)) 8 []) := by
  rw [fenToObj, if_pos isValidFen_START]

set_option maxRecDepth 10000 in
theorem START_POSITION_eq :
    START_POSITION = parseFenRows (splitSlash (cutSpaceTail START_FEN)) 8 [] := by
  show (fenToObj START_FEN).getD [] = _
  rw [fenToObj_START]
  rfl

theorem START_POSITION_valid : isValidPositionObject START_POSITION = true := by
  apply fenToObj_valid START_FEN
  rw [START_POSITION_eq]
  exact fenToObj_START

theorem normalizePosition_valid (input : BoardPosition) :
    isValidPositionObject (normalizePosition input) = true := by
  match input with
  | .nullv => decide
  | .objv o =>
    show isValidPositionObject (if isValidPositionObject o then o else []) = true
    by_cases h : isValidPositionObject o = true
    · rw [if_pos h]; exact h
    · rw [if_neg h]; decide
  | .strv s =>
    show isValidPositionObject (if s = [] then [] else if lowerStr s = q "start"
      then START_POSITION else if isValidFen s then (fenToObj s).getD [] else []) = true
    by_cases h1 : s = []
    · rw [if_pos h1]; decide
    · rw [if_neg h1]
      by_cases h2 : lowerStr s = q "start"
      · rw [if_pos h2]; exact START_POSITION_valid
      · rw [if_neg h2]
        by_cases h3 : isValidFen s = true
        · rw [if_pos h3]
          apply fenToObj_valid s
          rw [fenToObj, if_pos h3]
          rfl
        · rw [if_neg h3]; decide

/-- C3: for every valid position object `p`, parsing the serialization
`objToFen p` yields a position with exactly the same piece on every key as
`p`; and for every canonical FEN string `f` (eight ranks of eight units over
`[kqrnbpKQRNBP1-8]` with no two adjacent digits), serializing the parse
`fenToObj f` yields `f` back. -/
theorem claim_C3_roundtrip :
    (∀ p : Obj, isValidPositionObject p = true →
      ∃ f qq, objToFen p = some f ∧ fenToObj f = some qq ∧
        ∀ k, objGet qq k = objGet p k) ∧
    (∀ f : Str, canonicalFen f = true →
      ∃ qq, fenToObj f = some qq ∧ objToFen qq = some f) :=
  ⟨fenToObj_objToFen, objToFen_fenToObj⟩

theorem claim_C3_witness :
    isValidPositionObject [(q "e2", q "wP")] = true ∧
    canonicalFen START_FEN = true ∧
    (∃ f qq, objToFen [(q "e2", q "wP")] = some f ∧ fenToObj f = some qq ∧
      ∀ k, objGet qq k = objGet [(q "e2", q "wP")] k) ∧
    (∃ qq, fenToObj START_FEN = some qq ∧ objToFen qq = some START_FEN) :=
  ⟨by decide, by decide,
   claim_C3_roundtrip.1 [(q "e2", q "wP")] (by decide),
   claim_C3_roundtrip.2 START_FEN (by decide)⟩

/-- C4 counterexample: an invalid position object passed to `setPosition`
does not make it throw; normalization silently maps it to the empty position,
which passes validation, and the call succeeds. -/
theorem claim_C4_counterexample :
    setPositionE [] (.objv [(q "e2", q "XX")]) = .ok []
    ∧ isValidPositionObject [(q "e2", q "XX")] = false := by
  constructor
  · have hn : normalizePosition (.objv [(q "e2", q "XX")]) = [] := by
      show (if isValidPositionObject [(q "e2", q "XX")] then
        [(q "e2", q "XX")] else []) = []
      rw [if_neg (by decide)]
    show (if isValidPositionObject (normalizePosition (.objv [(q "e2", q "XX")])) then
        Except.ok (setCurrentPosition [] (normalizePosition (.objv [(q "e2", q "XX")]))).2
      else Except.error 6482) = Except.ok []
    rw [hn, if_pos (by decide)]
    rw [setCurrentPosition, if_pos rfl]
  · decide

/-- C4 (amended): `setPosition` never throws. `normalizePosition` maps every
input — including malformed objects and malformed FEN strings — to a valid
position object (malformed inputs become the empty position), so the
validation that guards the throw always passes and the stored position is
`#setCurrentPosition` applied to the normalized input. -/
theorem claim_C4_never_throws (cur : Obj) (input : BoardPosition) :
    setPositionE cur input
      = .ok (setCurrentPosition cur (normalizePosition input)).2 := by
  show (if isValidPositionObject (normalizePosition input) then
      Except.ok (setCurrentPosition cur (normalizePosition input)).2
    else Except.error 6482) = _
  rw [if_pos (normalizePosition_valid input)]

/-- C9: `#setCurrentPosition` fires the change event iff the FEN
serializations of the old and new positions differ, and in exactly that case
replaces the stored position; otherwise the old position is kept. -/
theorem claim_C9_setCurrentPosition (cur newPos : Obj) :
    ((setCurrentPosition cur newPos).1 = true ↔ objToFen cur ≠ objToFen newPos)
    ∧ (setCurrentPosition cur newPos).2
      = (if objToFen cur = objToFen newPos then cur else newPos) := by
  rw [setCurrentPosition]
  by_cases h : objToFen cur = objToFen newPos
  · rw [if_pos h, if_pos h]
    simp [h]
  · rw [if_neg h, if_neg h]
    simp [h]
